import Mathlib

/-!
Verification of the `scheduler` crate: a cron-style schedule parser
(`Schedule::new` in `src/lib.rs`) and a next-occurrence search engine
(`Schedule::get_next_match` in `src/lib.rs`, calendar arithmetic in
`src/time_extension.rs`).

Shallow embedding conventions:
* Rust `&str` is modelled as `List Char`; `str::split` on a single-character
  pattern is `splitOnChar`, `str::parse::<usize>` is `parseUsize`.
* `time::OffsetDateTime` is modelled as the record `DateTime` of calendar
  components (year, month, day, hour, minute, second, sub-second nanoseconds).
  The crate only ever adds one minute / hour / day / whole-month to an instant
  that has already been truncated to the start of that unit, so
  `checked_add(Duration::X)` is exactly the calendar carry chain
  `incMinute` / `incHour` / `incDay` / `incMonth` below.
* Bit-fields are `Nat`.  Every bit the Rust code sets has index `< 60 < 64`,
  so the `u64` values never wrap and agree with the untruncated `Nat` values.
* The inner hunting loops of `get_next_match` (`get_next_minute`,
  `get_next_hour`, `get_next_day_of_month`) always terminate in Rust: a step
  that does not report a carry increments the minute / hour / day by one and
  those are bounded by the unit size.  They are defined by structural
  recursion on that very bound (`gas`); the `gas = 0` fallback arm is
  unreachable (whenever gas runs out the step reports a carry and the loop
  exits), so the functions compute exactly the Rust loops.
* The outer nested search loops and the month loop `get_next_month` are
  genuinely partial (a schedule can be unsatisfiable), so they take fuel and
  return `none` when the fuel is exhausted.
* Rust panics (here: remainder by zero in the `*/m` branch) are the
  `Run.panicked` outcome.
-/

/-- A calendar instant, the model of `time::OffsetDateTime` (with a fixed
UTC offset; the crate never changes offsets).  `subsec` collects the
nanosecond/microsecond/millisecond fields that the crate always zeroes
together. -/
structure DateTime where
  year : Int
  month : Nat
  day : Nat
  hour : Nat
  minute : Nat
  second : Nat
  subsec : Nat
deriving DecidableEq, Repr

/-- Leap-year test of the `time` crate (`time::util::is_leap_year`). -/
def isLeapYear (y : Int) : Bool :=
  y % 4 == 0 && (y % 100 != 0 || y % 400 == 0)

/-- Days in a month, the model of `time::util::days_in_year_month`.
Months are 1-based; the default arm is unreachable for valid months. -/
def daysInMonth (y : Int) (m : Nat) : Nat :=
  match m with
  | 1 => 31
  | 2 => if isLeapYear y then 29 else 28
  | 3 => 31
  | 4 => 30
  | 5 => 31
  | 6 => 30
  | 7 => 31
  | 8 => 31
  | 9 => 30
  | 10 => 31
  | 11 => 30
  | 12 => 31
  | _ => 31

/-- The invariant `time::OffsetDateTime` maintains for its components. -/
def DateTime.Valid (d : DateTime) : Prop :=
  1 ≤ d.month ∧ d.month ≤ 12 ∧ 1 ≤ d.day ∧ d.day ≤ daysInMonth d.year d.month ∧
    d.hour < 24 ∧ d.minute < 60 ∧ d.second < 60 ∧ d.subsec < 1000000000

instance (d : DateTime) : Decidable d.Valid := by
  unfold DateTime.Valid; infer_instance

/-- Advance to the first instant of the next month (the date is assumed to be
at a month start; `next_month` establishes that before calling this). -/
def incMonth (d : DateTime) : DateTime :=
  if d.month < 12 then { d with month := d.month + 1 }
  else { d with month := 1, year := d.year + 1 }

/-- Add one day to an instant at a day start, carrying into the month. -/
def incDay (d : DateTime) : DateTime :=
  if d.day < daysInMonth d.year d.month then { d with day := d.day + 1 }
  else incMonth { d with day := 1 }

/-- Add one hour to an instant at an hour start, carrying into the day. -/
def incHour (d : DateTime) : DateTime :=
  if d.hour < 23 then { d with hour := d.hour + 1 }
  else incDay { d with hour := 0 }

/-- Add one minute to an instant at a minute start, carrying into the hour. -/
def incMinute (d : DateTime) : DateTime :=
  if d.minute < 59 then { d with minute := d.minute + 1 }
  else incHour { d with minute := 0 }

/-- `TimeExtension::to_start_of_minute`: zero ns, us, ms and s. -/
def to_start_of_minute (d : DateTime) : DateTime :=
  { d with second := 0, subsec := 0 }

/-- `TimeExtension::next_minute`: truncate to the start of the minute, add
`Duration::MINUTE`, and report whether the hour changed. -/
def next_minute (d : DateTime) : DateTime × Bool :=
  (incMinute (to_start_of_minute d),
    (to_start_of_minute d).hour != (incMinute (to_start_of_minute d)).hour)

/-- `TimeExtension::to_start_of_hour`. -/
def to_start_of_hour (d : DateTime) : DateTime :=
  { d with minute := 0, second := 0, subsec := 0 }

/-- `TimeExtension::next_hour`: truncate to the start of the hour, add
`Duration::HOUR`, and report whether the day changed. -/
def next_hour (d : DateTime) : DateTime × Bool :=
  (incHour (to_start_of_hour d),
    (to_start_of_hour d).day != (incHour (to_start_of_hour d)).day)

/-- `TimeExtension::to_start_of_day`. -/
def to_start_of_day (d : DateTime) : DateTime :=
  { d with hour := 0, minute := 0, second := 0, subsec := 0 }

/-- `TimeExtension::next_day`: truncate to the start of the day, add
`Duration::DAY`, and report whether the month changed. -/
def next_day (d : DateTime) : DateTime × Bool :=
  (incDay (to_start_of_day d),
    (to_start_of_day d).month != (incDay (to_start_of_day d)).month)

/-- `TimeExtension::to_start_of_month`. -/
def to_start_of_month (d : DateTime) : DateTime :=
  { d with day := 1, hour := 0, minute := 0, second := 0, subsec := 0 }

/-- `TimeExtension::next_month`: truncate to the start of the month and add
`days_in_year_month(year, month)` days.  Adding exactly the length of the
current month to its first instant lands on the first instant of the next
month, which is `incMonth` of the month start. -/
def next_month (d : DateTime) : DateTime :=
  incMonth (to_start_of_month d)

/-- The schedule data model of `src/lib.rs` (four `u64` bit-fields). -/
structure Schedule where
  months : Nat
  days_of_month : Nat
  hours : Nat
  minutes : Nat
deriving DecidableEq, Repr

/-- `is_month_valid` from `get_next_match`. -/
def is_month_valid (d : DateTime) (valid_months : Nat) : Bool :=
  valid_months &&& (1 <<< d.month) != 0

/-- `is_day_of_month_valid` from `get_next_match`. -/
def is_day_of_month_valid (d : DateTime) (valid_days_of_month : Nat) : Bool :=
  valid_days_of_month &&& (1 <<< d.day) != 0

/-- `is_hour_valid` from `get_next_match`. -/
def is_hour_valid (d : DateTime) (valid_hours : Nat) : Bool :=
  valid_hours &&& (1 <<< d.hour) != 0

/-- `is_minute_valid` from `get_next_match`. -/
def is_minute_valid (d : DateTime) (valid_minutes : Nat) : Bool :=
  valid_minutes &&& (1 <<< d.minute) != 0

/-- The loop body of `get_next_minute`, by structural recursion on
`gas = 59 - minute`: a step that does not report a carry goes from minute
`m < 59` to `m + 1`, so the fallback `gas = 0` arm is never reached from the
initial gas and the function computes exactly the Rust loop
`loop { looped = date.next_minute(); if looped || is_minute_valid { break } }`. -/
def minuteHuntGo (gas : Nat) (valid_minutes : Nat) (d : DateTime) : DateTime × Bool :=
  if (next_minute d).2 || is_minute_valid (next_minute d).1 valid_minutes then next_minute d
  else
    match gas with
    | 0 => next_minute d
    | g + 1 => minuteHuntGo g valid_minutes (next_minute d).1

/-- `get_next_minute` from `get_next_match`: advance minute by minute until a
permitted minute is reached or the hour changes; report the carry. -/
def get_next_minute (valid_minutes : Nat) (d : DateTime) : DateTime × Bool :=
  minuteHuntGo (59 - d.minute) valid_minutes d

/-- The loop body of `get_next_hour`, by structural recursion on
`gas = 23 - hour` (same scheme as `minuteHuntGo`). -/
def hourHuntGo (gas : Nat) (valid_hours : Nat) (d : DateTime) : DateTime × Bool :=
  if (next_hour d).2 || is_hour_valid (next_hour d).1 valid_hours then next_hour d
  else
    match gas with
    | 0 => next_hour d
    | g + 1 => hourHuntGo g valid_hours (next_hour d).1

/-- `get_next_hour` from `get_next_match`. -/
def get_next_hour (valid_hours : Nat) (d : DateTime) : DateTime × Bool :=
  hourHuntGo (23 - d.hour) valid_hours d

/-- The loop body of `get_next_day_of_month`, by structural recursion on
`gas = days_in_month - day` (a carry-free step keeps year and month, so the
bound is stable; same scheme as `minuteHuntGo`). -/
def dayHuntGo (gas : Nat) (valid_days_of_month : Nat) (d : DateTime) : DateTime × Bool :=
  if (next_day d).2 || is_day_of_month_valid (next_day d).1 valid_days_of_month then next_day d
  else
    match gas with
    | 0 => next_day d
    | g + 1 => dayHuntGo g valid_days_of_month (next_day d).1

/-- `get_next_day_of_month` from `get_next_match`. -/
def get_next_day_of_month (valid_days_of_month : Nat) (d : DateTime) : DateTime × Bool :=
  dayHuntGo (daysInMonth d.year d.month - d.day) valid_days_of_month d

/-- `get_next_month` from `get_next_match`:
`loop { date.next_month(); if is_month_valid { break } }`.  This loop is
genuinely partial (no month may be permitted), hence the fuel. -/
def get_next_month (valid_months : Nat) (fuel : Nat) (d : DateTime) : Option DateTime :=
  match fuel with
  | 0 => none
  | f + 1 =>
    if is_month_valid (next_month d) valid_months then some (next_month d)
    else get_next_month valid_months f (next_month d)

/-- The innermost loop of `get_next_match`.  `Sum.inl r` models `return r`
(the match), `Sum.inr d` models `break` out of the minute loop with the
working date `d`; `none` is fuel exhaustion. -/
def minuteLoop (s : Schedule) (fuel : Nat) (d : DateTime) : Option (DateTime ⊕ DateTime) :=
  match fuel with
  | 0 => none
  | f + 1 =>
    if is_minute_valid d s.minutes then some (Sum.inl d)
    else
      if (get_next_minute s.minutes d).2 && !(is_hour_valid (get_next_minute s.minutes d).1 s.hours)
      then some (Sum.inr (get_next_minute s.minutes d).1)
      else minuteLoop s f (get_next_minute s.minutes d).1

/-- The hour-level loop of `get_next_match`.  When the hour is permitted it
runs the minute loop; either way it falls through to `get_next_hour` and
breaks out (`Sum.inr`) when the hour hunt crossed a day boundary into a day
that is not permitted. -/
def hourLoop (s : Schedule) (fuel : Nat) (d : DateTime) : Option (DateTime ⊕ DateTime) :=
  match fuel with
  | 0 => none
  | f + 1 =>
    match (if is_hour_valid d s.hours then minuteLoop s (f + 1) d else some (Sum.inr d)) with
    | none => none
    | some (Sum.inl result) => some (Sum.inl result)
    | some (Sum.inr d1) =>
      if (get_next_hour s.hours d1).2 && !(is_day_of_month_valid (get_next_hour s.hours d1).1 s.days_of_month)
      then some (Sum.inr (get_next_hour s.hours d1).1)
      else hourLoop s f (get_next_hour s.hours d1).1

/-- The day-level loop of `get_next_match` (same shape as `hourLoop`). -/
def dayLoop (s : Schedule) (fuel : Nat) (d : DateTime) : Option (DateTime ⊕ DateTime) :=
  match fuel with
  | 0 => none
  | f + 1 =>
    match (if is_day_of_month_valid d s.days_of_month then hourLoop s (f + 1) d
           else some (Sum.inr d)) with
    | none => none
    | some (Sum.inl result) => some (Sum.inl result)
    | some (Sum.inr d1) =>
      if (get_next_day_of_month s.days_of_month d1).2 && !(is_month_valid (get_next_day_of_month s.days_of_month d1).1 s.months)
      then some (Sum.inr (get_next_day_of_month s.days_of_month d1).1)
      else dayLoop s f (get_next_day_of_month s.days_of_month d1).1

/-- The outer month-level loop of `get_next_match`: when the month is
permitted it runs the day loop; either way it falls through to
`get_next_month` and retries. -/
def monthLoop (s : Schedule) (fuel : Nat) (d : DateTime) : Option DateTime :=
  match fuel with
  | 0 => none
  | f + 1 =>
    match (if is_month_valid d s.months then dayLoop s (f + 1) d
           else some (Sum.inr d)) with
    | none => none
    | some (Sum.inl result) => some result
    | some (Sum.inr d1) =>
      match get_next_month s.months (f + 1) d1 with
      | none => none
      | some d2 => monthLoop s f d2

/-- `Schedule::get_next_match`: advance to the start of the next minute
unconditionally, then run the nested ripple-carry search. -/
def get_next_match (fuel : Nat) (s : Schedule) (d : DateTime) : Option DateTime :=
  monthLoop s fuel (next_minute d).1

/-- The search terminates on `(s, d)` when some fuel suffices. -/
def Terminates (s : Schedule) (d : DateTime) : Prop :=
  ∃ fuel r, get_next_match fuel s d = some r

/-- The error type of `src/error.rs`.  Rust `String` fields are `List Char`. -/
inductive ParsingError where
  | InvalidExpressionLength (expression : List Char) (expected got : Nat)
  | InvalidNumber (expression : List Char) (number : List Char)
  | InvalidList (expression : List Char) (list : List Char)
  | InvalidRange (expression : List Char) (range : List Char)
  | InvalidModulo (expression : List Char) (modulo : List Char)
deriving DecidableEq, Repr

/-- Outcome of running a fallible Rust function: normal return, early return
with a `ParsingError`, or a panic. -/
inductive Run (α : Type) where
  | ok (value : α)
  | err (e : ParsingError)
  | panicked
deriving DecidableEq, Repr

/-- Rust `str::split` with a single-character pattern, on the `List Char`
model: `"a,,b"` gives `["a", "", "b"]` and `""` gives `[""]`. -/
def splitOnChar (c : Char) : List Char → List (List Char)
  | [] => [[]]
  | x :: xs =>
    if x = c then [] :: splitOnChar c xs
    else
      match splitOnChar c xs with
      | [] => [[x]]
      | y :: ys => (x :: y) :: ys

/-- Rust `str::parse::<usize>`: an optional leading `+`, then one or more
decimal digits, and the value must fit in a `u64` (oversized tokens are a
parse error, `PosOverflow`; the digit accumulation below is over `Nat`, and
value `≥ 2^64` exactly when the Rust accumulation overflows).  The `headD`
sentinel `'x'` is not `'+'`, so an empty string keeps `digits = []` and
fails, as in Rust. -/
def parseUsize (s : List Char) : Option Nat :=
  let digits := if s.headD 'x' = '+' then s.tail else s
  if digits.isEmpty then none
  else if digits.all (fun c => c.isDigit) then
    let n := digits.foldl (fun acc c => acc * 10 + (c.toNat - 48)) 0
    if n < 2 ^ 64 then some n else none
  else none

/-- `for i in 0..N { bitfield |= 1 << i }` — the wildcard branch. -/
def setAllBits (N : Nat) (bitfield : Nat) : Nat :=
  (List.range N).foldl (fun acc i => acc ||| (1 <<< i)) bitfield

/-- `for i in start..=end { bitfield |= 1 << i }` — the range branch. -/
def setRangeBits (start stop : Nat) (bitfield : Nat) : Nat :=
  (List.range' start (stop + 1 - start)).foldl (fun acc i => acc ||| (1 <<< i)) bitfield

/-- `for i in 0..N { if i % modulo == 0 { bitfield |= 1 << i } }` — the step
branch, only reached with `modulo ≠ 0` (see `parse_component_go`). -/
def setStepBits (N modulo : Nat) (bitfield : Nat) : Nat :=
  (List.range N).foldl (fun acc i => if i % modulo == 0 then acc ||| (1 <<< i) else acc) bitfield

/-- The `for sub_component in component.split(",")` loop of `parse_component`
in `Schedule::new`, processing the remaining sub-components with the bits
accumulated so far.  A `*` sub-component sets all `N` bits and breaks out of
the loop (the function then returns `Ok(bitfield)`).  In the `*/m` branch,
`i % modulo` with `modulo = 0` panics in Rust at `i = 0`, which is reached
exactly when `N > 0`. -/
def parse_component_go (N : Nat) (expression component : List Char) (bitfield : Nat) :
    List (List Char) → Run Nat
  | [] => .ok bitfield
  | sub :: rest =>
    if sub.isEmpty then .err (.InvalidList expression component)
    else if sub = ['*'] then .ok (setAllBits N bitfield)
    else if sub.contains '-' then
      if (splitOnChar '-' sub).length ≠ 2 then .err (.InvalidRange expression sub)
      else
        match parseUsize ((splitOnChar '-' sub).getD 0 []) with
        | none => .err (.InvalidNumber expression ((splitOnChar '-' sub).getD 0 []))
        | some start =>
          match parseUsize ((splitOnChar '-' sub).getD 1 []) with
          | none => .err (.InvalidNumber expression ((splitOnChar '-' sub).getD 1 []))
          | some stop =>
            if start > stop ∨ stop ≥ N then .err (.InvalidRange expression sub)
            else parse_component_go N expression component (setRangeBits start stop bitfield) rest
    else if sub.contains '/' then
      if (splitOnChar '/' sub).length ≠ 2 then .err (.InvalidModulo expression sub)
      else if (splitOnChar '/' sub).getD 0 [] ≠ ['*'] then .err (.InvalidModulo expression sub)
      else
        match parseUsize ((splitOnChar '/' sub).getD 1 []) with
        | none => .err (.InvalidNumber expression ((splitOnChar '/' sub).getD 1 []))
        | some modulo =>
          if modulo = 0 then (if N = 0 then parse_component_go N expression component bitfield rest else .panicked)
          else parse_component_go N expression component (setStepBits N modulo bitfield) rest
    else
      match parseUsize sub with
      | none => .err (.InvalidNumber expression sub)
      | some index =>
        if index ≥ N then .err (.InvalidNumber expression sub)
        else parse_component_go N expression component (bitfield ||| (1 <<< index)) rest

/-- `parse_component::<N>` from `Schedule::new`. -/
def parse_component (N : Nat) (expression component : List Char) : Run Nat :=
  parse_component_go N expression component 0 (splitOnChar ',' component)

/-- `Schedule::new`: split on single spaces into exactly five components and
compile months (`component[3]`), days of month (`component[2]`), hours
(`component[1]`) and minutes (`component[0]`), in that order; the fifth
component (day of week) is never parsed. -/
def Schedule.new (expression : List Char) : Run Schedule :=
  match splitOnChar ' ' expression with
  | [c0, c1, c2, c3, _c4] =>
    match parse_component 12 expression c3 with
    | .err e => .err e
    | .panicked => .panicked
    | .ok months =>
      match parse_component 31 expression c2 with
      | .err e => .err e
      | .panicked => .panicked
      | .ok days_of_month =>
        match parse_component 24 expression c1 with
        | .err e => .err e
        | .panicked => .panicked
        | .ok hours =>
          match parse_component 60 expression c0 with
          | .err e => .err e
          | .panicked => .panicked
          | .ok minutes => .ok ⟨months, days_of_month, hours, minutes⟩
  | comps => .err (.InvalidExpressionLength expression 5 comps.length)

/-! ### Bit-test bridges -/

/-- The validity tests `bits &&& (1 << k) != 0` are bit tests. -/
theorem and_shift_ne_eq_testBit (v k : Nat) : (v &&& (1 <<< k) != 0) = v.testBit k := by
  rw [Nat.shiftLeft_eq, one_mul, Nat.and_two_pow]
  cases h : v.testBit k
  · simp
  · simp [bne_iff_ne, (Nat.two_pow_pos k).ne']

theorem is_month_valid_eq (d : DateTime) (v : Nat) :
    is_month_valid d v = v.testBit d.month := and_shift_ne_eq_testBit v d.month

theorem is_day_of_month_valid_eq (d : DateTime) (v : Nat) :
    is_day_of_month_valid d v = v.testBit d.day := and_shift_ne_eq_testBit v d.day

theorem is_hour_valid_eq (d : DateTime) (v : Nat) :
    is_hour_valid d v = v.testBit d.hour := and_shift_ne_eq_testBit v d.hour

theorem is_minute_valid_eq (d : DateTime) (v : Nat) :
    is_minute_valid d v = v.testBit d.minute := and_shift_ne_eq_testBit v d.minute

theorem ne_zero_of_testBit {v i : Nat} (h : v.testBit i = true) : v ≠ 0 := by
  intro h0; rw [h0, Nat.zero_testBit] at h; exact Bool.false_ne_true h

/-! ### Lemmas about the bit-setting loops of the parser -/

theorem foldl_or_testBit (l : List Nat) (acc i : Nat) :
    ((l.foldl (fun a j => a ||| (1 <<< j)) acc).testBit i = true) ↔
      (acc.testBit i = true ∨ i ∈ l) := by
  induction l generalizing acc with
  | nil => simp
  | cons j l ih =>
    rw [List.foldl_cons, ih]
    simp only [Nat.shiftLeft_eq, one_mul, Nat.testBit_lor, Bool.or_eq_true, List.mem_cons]
    by_cases hij : j = i
    · subst hij; simp [Nat.testBit_two_pow_self]
    · have hij' : ¬i = j := fun h => hij h.symm
      simp [Nat.testBit_two_pow_of_ne hij, hij']

theorem foldl_step_testBit (l : List Nat) (m acc i : Nat) :
    ((l.foldl (fun a j => if j % m == 0 then a ||| (1 <<< j) else a) acc).testBit i = true) ↔
      (acc.testBit i = true ∨ (i ∈ l ∧ i % m = 0)) := by
  induction l generalizing acc with
  | nil => simp
  | cons j l ih =>
    rw [List.foldl_cons]
    by_cases hj : j % m = 0
    · rw [if_pos (by simpa using hj), ih]
      simp only [Nat.shiftLeft_eq, one_mul, Nat.testBit_lor, Bool.or_eq_true, List.mem_cons]
      by_cases hij : j = i
      · subst hij; simp [Nat.testBit_two_pow_self, hj]
      · have hij' : ¬i = j := fun h => hij h.symm
        simp [Nat.testBit_two_pow_of_ne hij, hij']
    · rw [if_neg (by simpa using hj), ih]
      simp only [List.mem_cons]
      constructor
      · rintro (h | h)
        · exact Or.inl h
        · exact Or.inr ⟨Or.inr h.1, h.2⟩
      · rintro (h | ⟨hj' | hj', hm⟩)
        · exact Or.inl h
        · exact absurd (hj' ▸ hm) hj
        · exact Or.inr ⟨hj', hm⟩

theorem setAllBits_testBit (N acc i : Nat) :
    ((setAllBits N acc).testBit i = true) ↔ (acc.testBit i = true ∨ i < N) := by
  rw [setAllBits, foldl_or_testBit, List.mem_range]

theorem setRangeBits_testBit (a b acc i : Nat) (hab : a ≤ b) :
    ((setRangeBits a b acc).testBit i = true) ↔ (acc.testBit i = true ∨ (a ≤ i ∧ i ≤ b)) := by
  rw [setRangeBits, foldl_or_testBit, List.mem_range'_1]
  have harith : (a ≤ i ∧ i < a + (b + 1 - a)) ↔ (a ≤ i ∧ i ≤ b) := by omega
  rw [harith]

theorem setStepBits_testBit (N m acc i : Nat) :
    ((setStepBits N m acc).testBit i = true) ↔
      (acc.testBit i = true ∨ (i < N ∧ i % m = 0)) := by
  rw [setStepBits, foldl_step_testBit, List.mem_range]

/-! ### Lemmas about `splitOnChar` and `parseUsize` -/

theorem splitOnChar_ne_nil (c : Char) (s : List Char) : splitOnChar c s ≠ [] := by
  cases s with
  | nil => simp [splitOnChar]
  | cons x xs =>
    rw [splitOnChar]
    by_cases h : x = c
    · simp [h]
    · simp only [h, if_false]
      cases splitOnChar c xs <;> simp

theorem splitOnChar_of_not_mem (c : Char) (s : List Char) (h : c ∉ s) :
    splitOnChar c s = [s] := by
  induction s with
  | nil => rfl
  | cons x xs ih =>
    rw [splitOnChar]
    have hx : ¬x = c := fun he => h (he ▸ List.mem_cons_self x xs)
    have hxs : c ∉ xs := fun hm => h (List.mem_cons_of_mem x hm)
    simp [hx, ih hxs]

theorem splitOnChar_append (c : Char) (a b : List Char) (h : c ∉ a) :
    splitOnChar c (a ++ c :: b) = a :: splitOnChar c b := by
  induction a with
  | nil => simp [splitOnChar]
  | cons x xs ih =>
    have hx : ¬x = c := fun he => h (he ▸ List.mem_cons_self x xs)
    have hxs : c ∉ xs := fun hm => h (List.mem_cons_of_mem x hm)
    rw [List.cons_append, splitOnChar]
    simp only [hx, if_false, ih hxs]

theorem parseUsize_chars {s : List Char} {n : Nat} (h : parseUsize s = some n) :
    ∀ x ∈ s, x.isDigit = true ∨ x = '+' := by
  simp only [parseUsize] at h
  set digits := if s.headD 'x' = '+' then s.tail else s with hdig
  have hall : digits.all (fun c => c.isDigit) = true := by
    by_cases h1 : digits.isEmpty = true
    · rw [if_pos h1] at h; cases h
    · rw [if_neg h1] at h
      by_cases h2 : digits.all (fun c => c.isDigit) = true
      · exact h2
      · rw [if_neg h2] at h; cases h
  have hdigits : ∀ x ∈ digits, x.isDigit = true := List.all_eq_true.mp hall
  intro x hx
  by_cases hp : s.headD 'x' = '+'
  · cases s with
    | nil => cases hx
    | cons y ys =>
      have hy : y = '+' := by simpa using hp
      rcases List.mem_cons.mp hx with rfl | hx'
      · exact Or.inr hy
      · refine Or.inl (hdigits x ?_)
        rw [hdig, if_pos hp]
        exact hx'
  · refine Or.inl (hdigits x ?_)
    rw [hdig, if_neg hp]
    exact hx

theorem parseUsize_not_mem {s : List Char} {n : Nat} (h : parseUsize s = some n)
    {c : Char} (hd : c.isDigit = false) (hp : c ≠ '+') : c ∉ s := by
  intro hm
  rcases parseUsize_chars h c hm with h1 | h1
  · rw [hd] at h1; exact Bool.false_ne_true h1
  · exact hp h1

theorem parseUsize_ne_nil {s : List Char} {n : Nat} (h : parseUsize s = some n) : s ≠ [] := by
  rintro rfl
  rw [show parseUsize [] = none from rfl] at h
  cases h

/-! ### Claims about the parser -/

/-- C5 (code bug): the spec demands that the right part of a step
sub-component parse as a positive integer, with `InvalidNumber` otherwise,
and no panic.  The code accepts the token `0` (which parses as a `usize`)
and then evaluates `i % 0`, a remainder by zero, which panics in Rust.
Oversized tokens do fail with `InvalidNumber` as claimed. -/
theorem C5_step_zero_panics :
    Schedule.new "*/0 * * * *".data = Run.panicked ∧
      Schedule.new "*/18446744073709551616 * * * *".data =
        Run.err (.InvalidNumber "*/18446744073709551616 * * * *".data
          "18446744073709551616".data) :=
  ⟨by decide, by decide⟩

/-- C6 counterexample: with minutes component `*,99`, the invalid item `99`
never causes an error — `Schedule::new` succeeds, contradicting the claim
that a later invalid item still fails with that item's error. -/
theorem C6_counterexample :
    Schedule.new "*,99 * * * *".data =
      Run.ok ⟨4095, 2147483647, 16777215, 1152921504606846975⟩ := by decide

/-- C6 (amended): a `*` sub-component sets all `N` bits and breaks out of the
whole comma-list loop for that field, so the remaining comma-separated items
are not processed or validated at all and can never cause an error. -/
theorem C6_wildcard_stops_list_processing (N : Nat) (e comp : List Char) (acc : Nat)
    (rest : List (List Char)) :
    parse_component_go N e comp acc (['*'] :: rest) = .ok (setAllBits N acc) := rfl

/-- C7 (code bug): the struct documentation says months range over 1–12 and
days of month over 1–31, but the parser rejects a single-integer component
equal to the field width, so month 12 (December) and day 31 can never be
expressed: both fail with `InvalidNumber`. -/
theorem C7_month12_day31_rejected :
    Schedule.new "0 0 1 12 *".data =
        Run.err (.InvalidNumber "0 0 1 12 *".data "12".data) ∧
      Schedule.new "0 0 31 1 *".data =
        Run.err (.InvalidNumber "0 0 31 1 *".data "31".data) :=
  ⟨by decide, by decide⟩

/-- C8: a range sub-component `a-b` (with both endpoints parsing as `usize`)
fails with `InvalidRange` exactly when `a > b` or `b ≥ N`, and otherwise
compiles to the bit-field with exactly bits `a..=b` set. -/
theorem C8_range_validity (N : Nat) (e sa sb : List Char) (a b : Nat)
    (ha : parseUsize sa = some a) (hb : parseUsize sb = some b) :
    ((a > b ∨ b ≥ N) →
      parse_component N e (sa ++ '-' :: sb) =
        .err (.InvalidRange e (sa ++ '-' :: sb))) ∧
    (a ≤ b → b < N →
      ∃ bits, parse_component N e (sa ++ '-' :: sb) = .ok bits ∧
        ∀ i, bits.testBit i = true ↔ (a ≤ i ∧ i ≤ b)) := by
  have hdash : ('-' : Char) ∈ sa ++ '-' :: sb :=
    List.mem_append_right sa (List.mem_cons_self '-' sb)
  have hcomma : (',' : Char) ∉ sa ++ '-' :: sb := by
    intro hm
    rcases List.mem_append.mp hm with hm | hm
    · exact parseUsize_not_mem ha (by decide) (by decide) hm
    · rcases List.mem_cons.mp hm with hm | hm
      · exact absurd hm (by decide)
      · exact parseUsize_not_mem hb (by decide) (by decide) hm
  have hne : sa ++ '-' :: sb ≠ [] := by
    intro he
    rcases List.append_eq_nil.mp he with ⟨-, h2⟩
    cases h2
  have hemp : ¬((sa ++ '-' :: sb).isEmpty = true) := by
    rw [List.isEmpty_iff]; exact hne
  have hstar : ¬(sa ++ '-' :: sb = ['*']) := by
    intro he
    rw [he] at hdash
    exact absurd (List.mem_singleton.mp hdash) (by decide)
  have hcont : (sa ++ '-' :: sb).contains '-' = true := List.elem_eq_true_of_mem hdash
  have hsplit : splitOnChar '-' (sa ++ '-' :: sb) = [sa, sb] := by
    rw [splitOnChar_append '-' sa sb (parseUsize_not_mem ha (by decide) (by decide)),
      splitOnChar_of_not_mem '-' sb (parseUsize_not_mem hb (by decide) (by decide))]
  have hgo : ∀ r : Run Nat,
      (¬(a > b ∨ b ≥ N) → r = parse_component_go N e (sa ++ '-' :: sb) (setRangeBits a b 0) []) →
      ((a > b ∨ b ≥ N) → r = .err (.InvalidRange e (sa ++ '-' :: sb))) →
      parse_component N e (sa ++ '-' :: sb) = r := by
    intro r hr1 hr2
    rw [parse_component, splitOnChar_of_not_mem ',' _ hcomma]
    rw [parse_component_go]
    rw [if_neg hemp, if_neg hstar, if_pos hcont, hsplit]
    have hlen : ¬([sa, sb].length ≠ 2) := by simp
    rw [if_neg hlen]
    have e0 : [sa, sb].getD 0 [] = sa := rfl
    have e1 : [sa, sb].getD 1 [] = sb := rfl
    rw [e0, e1]
    simp only [ha, hb]
    by_cases hc : a > b ∨ b ≥ N
    · rw [if_pos hc, hr2 hc]
    · rw [if_neg hc, hr1 hc]
  constructor
  · intro hc
    exact hgo _ (fun h => absurd hc h) (fun _ => rfl)
  · intro h1 h2
    have hc : ¬(a > b ∨ b ≥ N) := by omega
    refine ⟨setRangeBits a b 0, ?_, ?_⟩
    · exact hgo _ (fun _ => rfl) (fun h => absurd h hc)
    · intro i
      rw [setRangeBits_testBit a b 0 i h1, Nat.zero_testBit]
      simp

theorem parse_component_go_ok_ne_zero (N : Nat) (e comp : List Char) :
    ∀ (subs : List (List Char)) (acc bf : Nat), 0 < N →
      parse_component_go N e comp acc subs = .ok bf →
      (acc ≠ 0 ∨ subs ≠ []) → bf ≠ 0 := by
  intro subs
  induction subs with
  | nil =>
    intro acc bf hN h hd
    rw [parse_component_go] at h
    cases h
    rcases hd with hd | hd
    · exact hd
    · exact absurd rfl hd
  | cons sub rest ih =>
    intro acc bf hN h hd
    rw [parse_component_go] at h
    split at h
    · cases h
    · split at h
      · cases h
        exact ne_zero_of_testBit ((setAllBits_testBit N acc 0).mpr (Or.inr hN))
      · split at h
        · -- range branch
          split at h
          · cases h
          · split at h
            · cases h
            next start hstart =>
              split at h
              · cases h
              next stop hstop =>
                split at h
                · cases h
                next hcond =>
                  refine ih _ _ hN h (Or.inl (ne_zero_of_testBit
                    ((setRangeBits_testBit start stop acc start (by omega)).mpr
                      (Or.inr ⟨Nat.le_refl start, by omega⟩))))
        · split at h
          · -- step branch
            split at h
            · cases h
            · split at h
              · cases h
              · split at h
                · cases h
                next modulo hmod =>
                  split at h
                  · split at h
                    · omega
                    · cases h
                  · refine ih _ _ hN h (Or.inl (ne_zero_of_testBit
                      ((setStepBits_testBit N modulo acc 0).mpr
                        (Or.inr ⟨hN, Nat.zero_mod modulo⟩))))
          · -- single-number branch
            split at h
            · cases h
            next index hindex =>
              split at h
              · cases h
              · refine ih _ _ hN h (Or.inl (ne_zero_of_testBit (i := index) ?_))
                rw [Nat.shiftLeft_eq, one_mul, Nat.testBit_lor, Nat.testBit_two_pow_self]
                exact Bool.or_true _

/-- C10: whenever `Schedule::new` succeeds, each of the four bit-fields of
the resulting schedule is non-zero — every successful sub-component sets at
least one bit and empty components are rejected — so an all-zero vector is
unreachable through parsing (the set bit may still be bit 0 of `months` or
`days_of_month`, which corresponds to no real calendar value). -/
theorem C10_ok_schedule_fields_nonzero (e : List Char) (s : Schedule)
    (h : Schedule.new e = .ok s) :
    s.months ≠ 0 ∧ s.days_of_month ≠ 0 ∧ s.hours ≠ 0 ∧ s.minutes ≠ 0 := by
  rw [Schedule.new] at h
  split at h
  · split at h
    · cases h
    · cases h
    next months hm =>
      split at h
      · cases h
      · cases h
      next days hdm =>
        split at h
        · cases h
        · cases h
        next hours hh =>
          split at h
          · cases h
          · cases h
          next minutes hmin =>
            cases h
            rw [parse_component] at hm hdm hh hmin
            refine ⟨?_, ?_, ?_, ?_⟩
            · exact parse_component_go_ok_ne_zero 12 e _ _ 0 months (by norm_num) hm
                (Or.inr (splitOnChar_ne_nil ',' _))
            · exact parse_component_go_ok_ne_zero 31 e _ _ 0 days (by norm_num) hdm
                (Or.inr (splitOnChar_ne_nil ',' _))
            · exact parse_component_go_ok_ne_zero 24 e _ _ 0 hours (by norm_num) hh
                (Or.inr (splitOnChar_ne_nil ',' _))
            · exact parse_component_go_ok_ne_zero 60 e _ _ 0 minutes (by norm_num) hmin
                (Or.inr (splitOnChar_ne_nil ',' _))
  · cases h

/-- Witness for C10: the schedule parsed from `0 0 0 0 *` (every field the
single integer 0, months/days at the meaningless bit 0). -/
theorem C10_witness :
    (Schedule.mk 1 1 1 1).months ≠ 0 ∧ (Schedule.mk 1 1 1 1).days_of_month ≠ 0 ∧
      (Schedule.mk 1 1 1 1).hours ≠ 0 ∧ (Schedule.mk 1 1 1 1).minutes ≠ 0 :=
  C10_ok_schedule_fields_nonzero "0 0 0 0 *".data ⟨1, 1, 1, 1⟩ (by decide)

/-- Witness for C8: the minute ranges `18-15` (invalid, `a > b`) and `15-18`
(valid, bits 15 through 18). -/
theorem C8_witness :
    (parse_component 60 [] ("18".data ++ '-' :: "15".data) =
      .err (.InvalidRange [] ("18".data ++ '-' :: "15".data))) ∧
    (∃ bits, parse_component 60 [] ("15".data ++ '-' :: "18".data) = .ok bits ∧
      ∀ i, bits.testBit i = true ↔ (15 ≤ i ∧ i ≤ 18)) :=
  ⟨(C8_range_validity 60 [] "18".data "15".data 18 15 (by decide) (by decide)).1 (by omega),
   (C8_range_validity 60 [] "15".data "18".data 15 18 (by decide) (by decide)).2 (by omega)
     (by omega)⟩

/-! ### Basic facts about the calendar primitives -/

theorem daysInMonth_ge_28 (y : Int) (m : Nat) : 28 ≤ daysInMonth y m := by
  unfold daysInMonth
  split <;> (try split) <;> norm_num

@[simp] theorem incMonth_day (d : DateTime) : (incMonth d).day = d.day := by
  unfold incMonth; split <;> rfl

@[simp] theorem incMonth_hour (d : DateTime) : (incMonth d).hour = d.hour := by
  unfold incMonth; split <;> rfl

@[simp] theorem incMonth_minute (d : DateTime) : (incMonth d).minute = d.minute := by
  unfold incMonth; split <;> rfl

@[simp] theorem incMonth_second (d : DateTime) : (incMonth d).second = d.second := by
  unfold incMonth; split <;> rfl

@[simp] theorem incMonth_subsec (d : DateTime) : (incMonth d).subsec = d.subsec := by
  unfold incMonth; split <;> rfl

@[simp] theorem incDay_hour (d : DateTime) : (incDay d).hour = d.hour := by
  unfold incDay; split
  · rfl
  · rw [incMonth_hour]

@[simp] theorem incDay_minute (d : DateTime) : (incDay d).minute = d.minute := by
  unfold incDay; split
  · rfl
  · rw [incMonth_minute]

@[simp] theorem incDay_second (d : DateTime) : (incDay d).second = d.second := by
  unfold incDay; split
  · rfl
  · rw [incMonth_second]

@[simp] theorem incDay_subsec (d : DateTime) : (incDay d).subsec = d.subsec := by
  unfold incDay; split
  · rfl
  · rw [incMonth_subsec]

@[simp] theorem incHour_minute (d : DateTime) : (incHour d).minute = d.minute := by
  unfold incHour; split
  · rfl
  · rw [incDay_minute]

@[simp] theorem incHour_second (d : DateTime) : (incHour d).second = d.second := by
  unfold incHour; split
  · rfl
  · rw [incDay_second]

@[simp] theorem incHour_subsec (d : DateTime) : (incHour d).subsec = d.subsec := by
  unfold incHour; split
  · rfl
  · rw [incDay_subsec]

@[simp] theorem incMinute_second (d : DateTime) : (incMinute d).second = d.second := by
  unfold incMinute; split
  · rfl
  · rw [incHour_second]

@[simp] theorem incMinute_subsec (d : DateTime) : (incMinute d).subsec = d.subsec := by
  unfold incMinute; split
  · rfl
  · rw [incHour_subsec]

theorem incMonth_month_range (d : DateTime) :
    1 ≤ (incMonth d).month ∧ (incMonth d).month ≤ 12 := by
  unfold incMonth; split <;> simp <;> omega

theorem incMonth_month_ne (d : DateTime) : (incMonth d).month ≠ d.month := by
  unfold incMonth; split <;> simp <;> omega

theorem incDay_day_ne (d : DateTime) : (incDay d).day ≠ d.day := by
  unfold incDay; split
  next h => simp
  next h =>
    rw [incMonth_day]
    have := daysInMonth_ge_28 d.year d.month
    simp; omega

theorem incHour_hour_ne (d : DateTime) : (incHour d).hour ≠ d.hour := by
  unfold incHour; split
  next h => simp
  next h =>
    rw [incDay_hour]
    simp; omega

/-- Carry-free minute step: for `minute < 59`, `next_minute` just bumps the
minute (after truncation) and reports no carry. -/
theorem next_minute_of_lt {d : DateTime} (h : d.minute < 59) :
    next_minute d = ({d with minute := d.minute + 1, second := 0, subsec := 0}, false) := by
  unfold next_minute to_start_of_minute incMinute
  simp only
  rw [if_pos (show d.minute < 59 from h)]
  simp

/-- Carrying minute step: for `minute ≥ 59` the minute wraps, the hour
advances, and the carry is reported (`incHour` always changes the hour). -/
theorem next_minute_of_ge {d : DateTime} (h : 59 ≤ d.minute) :
    next_minute d = (incHour { d with minute := 0, second := 0, subsec := 0 }, true) := by
  unfold next_minute to_start_of_minute incMinute
  simp only
  rw [if_neg (show ¬(d.minute < 59) by omega)]
  refine Prod.ext ?_ ?_
  · rfl
  · simp only
    rw [bne_iff_ne]
    exact fun he => incHour_hour_ne { d with minute := 0, second := 0, subsec := 0 } he.symm

/-- Carry-free hour step. -/
theorem next_hour_of_lt {d : DateTime} (h : d.hour < 23) :
    next_hour d =
      ({d with hour := d.hour + 1, minute := 0, second := 0, subsec := 0}, false) := by
  unfold next_hour to_start_of_hour incHour
  simp only
  rw [if_pos (show d.hour < 23 from h)]
  simp

/-- Carrying hour step (`incDay` always changes the day). -/
theorem next_hour_of_ge {d : DateTime} (h : 23 ≤ d.hour) :
    next_hour d =
      (incDay { d with hour := 0, minute := 0, second := 0, subsec := 0 }, true) := by
  unfold next_hour to_start_of_hour incHour
  simp only
  rw [if_neg (show ¬(d.hour < 23) by omega)]
  refine Prod.ext ?_ ?_
  · rfl
  · simp only
    rw [bne_iff_ne]
    exact fun he => incDay_day_ne { d with hour := 0, minute := 0, second := 0, subsec := 0 } he.symm

/-- Carry-free day step. -/
theorem next_day_of_lt {d : DateTime} (h : d.day < daysInMonth d.year d.month) :
    next_day d =
      ({d with day := d.day + 1, hour := 0, minute := 0, second := 0, subsec := 0}, false) := by
  unfold next_day to_start_of_day incDay
  simp only
  rw [if_pos (show d.day < daysInMonth d.year d.month from h)]
  simp

/-- Carrying day step (`incMonth` always changes the month). -/
theorem next_day_of_ge {d : DateTime} (h : daysInMonth d.year d.month ≤ d.day) :
    next_day d =
      (incMonth { d with day := 1, hour := 0, minute := 0, second := 0, subsec := 0 }, true) := by
  unfold next_day to_start_of_day incDay
  simp only
  rw [if_neg (show ¬(d.day < daysInMonth d.year d.month) by omega)]
  refine Prod.ext ?_ ?_
  · rfl
  · simp only
    rw [bne_iff_ne]
    exact fun he =>
      incMonth_month_ne { d with day := 1, hour := 0, minute := 0, second := 0, subsec := 0 }
        he.symm

/-! ### Chronological order on instants -/

/-- Strict chronological order on `DateTime`: lexicographic on the calendar
components from coarsest to finest.  On valid instants this is exactly the
order of the underlying `time::OffsetDateTime` timestamps. -/
def dtLt (a b : DateTime) : Prop :=
  a.year < b.year ∨ (a.year = b.year ∧ (a.month < b.month ∨ (a.month = b.month ∧
    (a.day < b.day ∨ (a.day = b.day ∧ (a.hour < b.hour ∨ (a.hour = b.hour ∧
      (a.minute < b.minute ∨ (a.minute = b.minute ∧ (a.second < b.second ∨
        (a.second = b.second ∧ a.subsec < b.subsec)))))))))))

instance (a b : DateTime) : Decidable (dtLt a b) := by
  unfold dtLt; infer_instance

/-- Non-strict chronological order. -/
def dtLe (a b : DateTime) : Prop := dtLt a b ∨ a = b

theorem dtLt_trans {a b c : DateTime} (h1 : dtLt a b) (h2 : dtLt b c) : dtLt a c := by
  rcases a with ⟨ay, amo, ad, ah, ami, as, ass⟩
  rcases b with ⟨by_, bmo, bd, bh, bmi, bs, bss⟩
  rcases c with ⟨cy, cmo, cd, ch, cmi, cs, css⟩
  unfold dtLt at *
  simp only at *
  omega

theorem dtLt_of_dtLt_of_dtLe {a b c : DateTime} (h1 : dtLt a b) (h2 : dtLe b c) : dtLt a c := by
  rcases h2 with h2 | rfl
  · exact dtLt_trans h1 h2
  · exact h1

theorem dtLe_of_dtLt {a b : DateTime} (h : dtLt a b) : dtLe a b := Or.inl h

theorem dtLe_refl (a : DateTime) : dtLe a a := Or.inr rfl

theorem dtLe_trans {a b c : DateTime} (h1 : dtLe a b) (h2 : dtLe b c) : dtLe a c := by
  rcases h1 with h1 | rfl
  · exact Or.inl (dtLt_of_dtLt_of_dtLe h1 h2)
  · exact h2

/-- Every minute step strictly advances the instant. -/
theorem next_minute_lt (d : DateTime) : dtLt d (next_minute d).1 := by
  rcases d with ⟨y, mo, da, h, mi, s, ss⟩
  simp only [next_minute, to_start_of_minute, incMinute, incHour, incDay, incMonth]
  split_ifs <;> (unfold dtLt; simp; try omega)

/-- Every hour step strictly advances the instant. -/
theorem next_hour_lt (d : DateTime) : dtLt d (next_hour d).1 := by
  rcases d with ⟨y, mo, da, h, mi, s, ss⟩
  simp only [next_hour, to_start_of_hour, incHour, incDay, incMonth]
  split_ifs <;> (unfold dtLt; simp; try omega)

/-- Every day step strictly advances the instant. -/
theorem next_day_lt (d : DateTime) : dtLt d (next_day d).1 := by
  rcases d with ⟨y, mo, da, h, mi, s, ss⟩
  simp only [next_day, to_start_of_day, incDay, incMonth]
  split_ifs <;> (unfold dtLt; simp; try omega)

/-- Every month step strictly advances the instant. -/
theorem next_month_lt (d : DateTime) : dtLt d (next_month d) := by
  rcases d with ⟨y, mo, da, h, mi, s, ss⟩
  simp only [next_month, to_start_of_month, incMonth]
  split_ifs <;> (unfold dtLt; simp; try omega)

@[simp] theorem next_minute_second (d : DateTime) : (next_minute d).1.second = 0 := by
  simp [next_minute, to_start_of_minute]

@[simp] theorem next_minute_subsec (d : DateTime) : (next_minute d).1.subsec = 0 := by
  simp [next_minute, to_start_of_minute]

@[simp] theorem next_hour_second (d : DateTime) : (next_hour d).1.second = 0 := by
  simp [next_hour, to_start_of_hour]

@[simp] theorem next_hour_subsec (d : DateTime) : (next_hour d).1.subsec = 0 := by
  simp [next_hour, to_start_of_hour]

@[simp] theorem next_day_second (d : DateTime) : (next_day d).1.second = 0 := by
  simp [next_day, to_start_of_day]

@[simp] theorem next_day_subsec (d : DateTime) : (next_day d).1.subsec = 0 := by
  simp [next_day, to_start_of_day]

@[simp] theorem next_month_second (d : DateTime) : (next_month d).second = 0 := by
  simp [next_month, to_start_of_month]

@[simp] theorem next_month_subsec (d : DateTime) : (next_month d).subsec = 0 := by
  simp [next_month, to_start_of_month]

/-! ### The hunting loops advance the instant and keep it minute-truncated -/

theorem minuteHuntGo_lt (gas v : Nat) (d : DateTime) : dtLt d (minuteHuntGo gas v d).1 := by
  induction gas generalizing d with
  | zero =>
    simp only [minuteHuntGo]
    split
    · exact next_minute_lt d
    · exact next_minute_lt d
  | succ g ih =>
    simp only [minuteHuntGo]
    split
    · exact next_minute_lt d
    · exact dtLt_trans (next_minute_lt d) (ih (next_minute d).1)

theorem hourHuntGo_lt (gas v : Nat) (d : DateTime) : dtLt d (hourHuntGo gas v d).1 := by
  induction gas generalizing d with
  | zero =>
    simp only [hourHuntGo]
    split
    · exact next_hour_lt d
    · exact next_hour_lt d
  | succ g ih =>
    simp only [hourHuntGo]
    split
    · exact next_hour_lt d
    · exact dtLt_trans (next_hour_lt d) (ih (next_hour d).1)

theorem dayHuntGo_lt (gas v : Nat) (d : DateTime) : dtLt d (dayHuntGo gas v d).1 := by
  induction gas generalizing d with
  | zero =>
    simp only [dayHuntGo]
    split
    · exact next_day_lt d
    · exact next_day_lt d
  | succ g ih =>
    simp only [dayHuntGo]
    split
    · exact next_day_lt d
    · exact dtLt_trans (next_day_lt d) (ih (next_day d).1)

theorem get_next_minute_lt (v : Nat) (d : DateTime) : dtLt d (get_next_minute v d).1 :=
  minuteHuntGo_lt (59 - d.minute) v d

theorem get_next_hour_lt (v : Nat) (d : DateTime) : dtLt d (get_next_hour v d).1 :=
  hourHuntGo_lt (23 - d.hour) v d

theorem get_next_day_of_month_lt (v : Nat) (d : DateTime) :
    dtLt d (get_next_day_of_month v d).1 :=
  dayHuntGo_lt (daysInMonth d.year d.month - d.day) v d

theorem minuteHuntGo_trunc (gas v : Nat) (d : DateTime) :
    (minuteHuntGo gas v d).1.second = 0 ∧ (minuteHuntGo gas v d).1.subsec = 0 := by
  induction gas generalizing d with
  | zero =>
    simp only [minuteHuntGo]
    split <;> simp
  | succ g ih =>
    simp only [minuteHuntGo]
    split
    · simp
    · exact ih (next_minute d).1

theorem hourHuntGo_trunc (gas v : Nat) (d : DateTime) :
    (hourHuntGo gas v d).1.second = 0 ∧ (hourHuntGo gas v d).1.subsec = 0 := by
  induction gas generalizing d with
  | zero =>
    simp only [hourHuntGo]
    split <;> simp
  | succ g ih =>
    simp only [hourHuntGo]
    split
    · simp
    · exact ih (next_hour d).1

theorem dayHuntGo_trunc (gas v : Nat) (d : DateTime) :
    (dayHuntGo gas v d).1.second = 0 ∧ (dayHuntGo gas v d).1.subsec = 0 := by
  induction gas generalizing d with
  | zero =>
    simp only [dayHuntGo]
    split <;> simp
  | succ g ih =>
    simp only [dayHuntGo]
    split
    · simp
    · exact ih (next_day d).1

theorem get_next_minute_trunc (v : Nat) (d : DateTime) :
    (get_next_minute v d).1.second = 0 ∧ (get_next_minute v d).1.subsec = 0 :=
  minuteHuntGo_trunc (59 - d.minute) v d

theorem get_next_hour_trunc (v : Nat) (d : DateTime) :
    (get_next_hour v d).1.second = 0 ∧ (get_next_hour v d).1.subsec = 0 :=
  hourHuntGo_trunc (23 - d.hour) v d

theorem get_next_day_of_month_trunc (v : Nat) (d : DateTime) :
    (get_next_day_of_month v d).1.second = 0 ∧ (get_next_day_of_month v d).1.subsec = 0 :=
  dayHuntGo_trunc (daysInMonth d.year d.month - d.day) v d

theorem get_next_month_sound (v : Nat) :
    ∀ (fuel : Nat) (d d' : DateTime), get_next_month v fuel d = some d' →
      dtLt d d' ∧ d'.second = 0 ∧ d'.subsec = 0 := by
  intro fuel
  induction fuel with
  | zero => intro d d' h; cases h
  | succ f ih =>
    intro d d' h
    rw [get_next_month] at h
    split at h
    · cases h
      exact ⟨next_month_lt d, next_month_second d, next_month_subsec d⟩
    · have hr := ih (next_month d) d' h
      exact ⟨dtLt_trans (next_month_lt d) hr.1, hr.2⟩

/-! ### The nested search loops advance the instant and keep it truncated -/

theorem minuteLoop_sound (s : Schedule) :
    ∀ (f : Nat) (d : DateTime) (x : DateTime ⊕ DateTime), minuteLoop s f d = some x →
      dtLe d (x.elim id id) ∧
      ((d.second = 0 ∧ d.subsec = 0) →
        ((x.elim id id).second = 0 ∧ (x.elim id id).subsec = 0)) := by
  intro f
  induction f with
  | zero => intro d x h; cases h
  | succ g ih =>
    intro d x h
    rw [minuteLoop] at h
    split at h
    · cases h
      exact ⟨dtLe_refl d, id⟩
    · split at h
      · cases h
        exact ⟨Or.inl (get_next_minute_lt s.minutes d),
          fun _ => get_next_minute_trunc s.minutes d⟩
      · have hr := ih (get_next_minute s.minutes d).1 x h
        exact ⟨dtLe_trans (Or.inl (get_next_minute_lt s.minutes d)) hr.1,
          fun _ => hr.2 (get_next_minute_trunc s.minutes d)⟩

theorem hourLoop_sound (s : Schedule) :
    ∀ (f : Nat) (d : DateTime) (x : DateTime ⊕ DateTime), hourLoop s f d = some x →
      dtLe d (x.elim id id) ∧
      ((d.second = 0 ∧ d.subsec = 0) →
        ((x.elim id id).second = 0 ∧ (x.elim id id).subsec = 0)) := by
  intro f
  induction f with
  | zero => intro d x h; cases h
  | succ g ih =>
    intro d x h
    rw [hourLoop] at h
    split at h
    · cases h
    next result heq =>
      cases h
      split at heq
      · exact minuteLoop_sound s (g + 1) d (Sum.inl result) heq
      · cases heq
    next d1 heq =>
      have hd1 : dtLe d d1 ∧
          ((d.second = 0 ∧ d.subsec = 0) → (d1.second = 0 ∧ d1.subsec = 0)) := by
        split at heq
        · exact minuteLoop_sound s (g + 1) d (Sum.inr d1) heq
        · cases heq; exact ⟨dtLe_refl d, id⟩
      split at h
      · cases h
        exact ⟨dtLe_trans hd1.1 (Or.inl (get_next_hour_lt s.hours d1)),
          fun _ => get_next_hour_trunc s.hours d1⟩
      · have hr := ih (get_next_hour s.hours d1).1 x h
        exact ⟨dtLe_trans hd1.1 (dtLe_trans (Or.inl (get_next_hour_lt s.hours d1)) hr.1),
          fun _ => hr.2 (get_next_hour_trunc s.hours d1)⟩

theorem dayLoop_sound (s : Schedule) :
    ∀ (f : Nat) (d : DateTime) (x : DateTime ⊕ DateTime), dayLoop s f d = some x →
      dtLe d (x.elim id id) ∧
      ((d.second = 0 ∧ d.subsec = 0) →
        ((x.elim id id).second = 0 ∧ (x.elim id id).subsec = 0)) := by
  intro f
  induction f with
  | zero => intro d x h; cases h
  | succ g ih =>
    intro d x h
    rw [dayLoop] at h
    split at h
    · cases h
    next result heq =>
      cases h
      split at heq
      · exact hourLoop_sound s (g + 1) d (Sum.inl result) heq
      · cases heq
    next d1 heq =>
      have hd1 : dtLe d d1 ∧
          ((d.second = 0 ∧ d.subsec = 0) → (d1.second = 0 ∧ d1.subsec = 0)) := by
        split at heq
        · exact hourLoop_sound s (g + 1) d (Sum.inr d1) heq
        · cases heq; exact ⟨dtLe_refl d, id⟩
      split at h
      · cases h
        exact ⟨dtLe_trans hd1.1 (Or.inl (get_next_day_of_month_lt s.days_of_month d1)),
          fun _ => get_next_day_of_month_trunc s.days_of_month d1⟩
      · have hr := ih (get_next_day_of_month s.days_of_month d1).1 x h
        exact ⟨dtLe_trans hd1.1
            (dtLe_trans (Or.inl (get_next_day_of_month_lt s.days_of_month d1)) hr.1),
          fun _ => hr.2 (get_next_day_of_month_trunc s.days_of_month d1)⟩

theorem monthLoop_sound (s : Schedule) :
    ∀ (f : Nat) (d : DateTime) (r : DateTime), monthLoop s f d = some r →
      dtLe d r ∧ ((d.second = 0 ∧ d.subsec = 0) → (r.second = 0 ∧ r.subsec = 0)) := by
  intro f
  induction f with
  | zero => intro d r h; cases h
  | succ g ih =>
    intro d r h
    rw [monthLoop] at h
    split at h
    · cases h
    next result heq =>
      cases h
      split at heq
      · exact dayLoop_sound s (g + 1) d _ heq
      · cases heq
    next d1 heq =>
      have hd1 : dtLe d d1 ∧
          ((d.second = 0 ∧ d.subsec = 0) → (d1.second = 0 ∧ d1.subsec = 0)) := by
        split at heq
        · exact dayLoop_sound s (g + 1) d (Sum.inr d1) heq
        · cases heq; exact ⟨dtLe_refl d, id⟩
      split at h
      · cases h
      next d2 heq2 =>
        have h2 := get_next_month_sound s.months (g + 1) d1 d2 heq2
        have hr := ih d2 r h
        exact ⟨dtLe_trans hd1.1 (dtLe_trans (Or.inl h2.1) hr.1),
          fun _ => hr.2 ⟨h2.2.1, h2.2.2⟩⟩

/-! ### Claims about the engine -/

/-- C3: whenever `get_next_match` returns, the returned instant is strictly
later than the starting instant and is truncated to minute resolution
(seconds and sub-seconds are zero); in particular the result never equals the
starting instant, even when that instant satisfies the schedule, because of
the unconditional initial `next_minute` advance. -/
theorem C3_strictly_later_and_truncated (fuel : Nat) (s : Schedule) (t r : DateTime)
    (h : get_next_match fuel s t = some r) :
    dtLt t r ∧ r.second = 0 ∧ r.subsec = 0 := by
  rw [get_next_match] at h
  have hm := monthLoop_sound s fuel (next_minute t).1 r h
  refine ⟨dtLt_of_dtLt_of_dtLe (next_minute_lt t) hm.1, ?_⟩
  exact hm.2 ⟨next_minute_second t, next_minute_subsec t⟩

/-- Witness for C3: the universal schedule at 2023-06-05 12:00:30.000000007
returns 2023-06-05 12:01:00, strictly later and minute-truncated. -/
theorem C3_witness :
    dtLt ⟨2023, 6, 5, 12, 0, 30, 7⟩ ⟨2023, 6, 5, 12, 1, 0, 0⟩ ∧
      (⟨2023, 6, 5, 12, 1, 0, 0⟩ : DateTime).second = 0 ∧
      (⟨2023, 6, 5, 12, 1, 0, 0⟩ : DateTime).subsec = 0 :=
  C3_strictly_later_and_truncated 12 ⟨4095, 2147483647, 16777215, 1152921504606846975⟩
    ⟨2023, 6, 5, 12, 0, 30, 7⟩ ⟨2023, 6, 5, 12, 1, 0, 0⟩ (by decide)

/-- C1 (code bug): the minute hunt can cross a day boundary while the engine
re-checks only the hour, so the returned instant can violate the day-of-month
constraint.  For the schedule `30 0,23 5 * *` (minute 30, hours 0 and 23, day
5 only) started at 2023-06-05 23:40, the engine returns 2023-06-06 00:30,
whose day bit (6) is not set in the schedule. -/
theorem C1_satisfaction_violated :
    Schedule.new "30 0,23 5 * *".data = .ok ⟨4095, 32, 8388609, 1073741824⟩ ∧
      get_next_match 12 ⟨4095, 32, 8388609, 1073741824⟩ ⟨2023, 6, 5, 23, 40, 0, 0⟩ =
        some ⟨2023, 6, 6, 0, 30, 0, 0⟩ ∧
      is_day_of_month_valid ⟨2023, 6, 6, 0, 30, 0, 0⟩
        (Schedule.mk 4095 32 8388609 1073741824).days_of_month = false :=
  ⟨by decide, by decide, by decide⟩

/-- C2 (code bug): the wildcard only sets bits `0..N-1`, but months and days
are 1-based, so `* * * * *` never matches December (bit 12) or day 31.  From
2023-12-15 10:30 the universal schedule does not return 10:31 of the same day
(minute start plus one minute) but jumps to 2024-01-01 00:00. -/
theorem C2_universal_schedule_violated :
    Schedule.new "* * * * *".data =
        .ok ⟨4095, 2147483647, 16777215, 1152921504606846975⟩ ∧
      (next_minute ⟨2023, 12, 15, 10, 30, 0, 0⟩).1 = ⟨2023, 12, 15, 10, 31, 0, 0⟩ ∧
      get_next_match 12 ⟨4095, 2147483647, 16777215, 1152921504606846975⟩
          ⟨2023, 12, 15, 10, 30, 0, 0⟩ = some ⟨2024, 1, 1, 0, 0, 0, 0⟩ ∧
      get_next_match 12 ⟨4095, 2147483647, 16777215, 1152921504606846975⟩
          ⟨2023, 12, 15, 10, 30, 0, 0⟩ ≠ some ⟨2023, 12, 15, 10, 31, 0, 0⟩ :=
  ⟨by decide, by decide, by decide, by decide⟩

/-! ### Fuel monotonicity: once the search returns, more fuel returns the same -/

theorem get_next_month_mono (v : Nat) :
    ∀ (f f' : Nat) (d : DateTime) (x : DateTime), f ≤ f' →
      get_next_month v f d = some x → get_next_month v f' d = some x := by
  intro f
  induction f with
  | zero => intro f' d x _ h; cases h
  | succ g ih =>
    intro f' d x hle h
    obtain ⟨k, rfl⟩ : ∃ k, f' = k + 1 := ⟨f' - 1, by omega⟩
    rw [get_next_month] at h
    rw [get_next_month]
    split at h
    next hc =>
      cases h
      rw [if_pos hc]
    next hc =>
      rw [if_neg hc]
      exact ih k (next_month d) x (by omega) h

theorem minuteLoop_mono (s : Schedule) :
    ∀ (f f' : Nat) (d : DateTime) (x : DateTime ⊕ DateTime), f ≤ f' →
      minuteLoop s f d = some x → minuteLoop s f' d = some x := by
  intro f
  induction f with
  | zero => intro f' d x _ h; cases h
  | succ g ih =>
    intro f' d x hle h
    obtain ⟨k, rfl⟩ : ∃ k, f' = k + 1 := ⟨f' - 1, by omega⟩
    rw [minuteLoop] at h
    rw [minuteLoop]
    split at h
    next hc =>
      cases h
      rw [if_pos hc]
    next hc =>
      rw [if_neg hc]
      split at h
      next hc2 =>
        cases h
        rw [if_pos hc2]
      next hc2 =>
        rw [if_neg hc2]
        exact ih k _ x (by omega) h

theorem hourLoop_mono (s : Schedule) :
    ∀ (f f' : Nat) (d : DateTime) (x : DateTime ⊕ DateTime), f ≤ f' →
      hourLoop s f d = some x → hourLoop s f' d = some x := by
  intro f
  induction f with
  | zero => intro f' d x _ h; cases h
  | succ g ih =>
    intro f' d x hle h
    obtain ⟨k, rfl⟩ : ∃ k, f' = k + 1 := ⟨f' - 1, by omega⟩
    have hgk : g ≤ k := by omega
    rw [hourLoop] at h
    rw [hourLoop]
    have tail : ∀ d1 : DateTime,
        (if (get_next_hour s.hours d1).2 &&
            !(is_day_of_month_valid (get_next_hour s.hours d1).1 s.days_of_month)
          then some (Sum.inr (get_next_hour s.hours d1).1)
          else hourLoop s g (get_next_hour s.hours d1).1) = some x →
        (if (get_next_hour s.hours d1).2 &&
            !(is_day_of_month_valid (get_next_hour s.hours d1).1 s.days_of_month)
          then some (Sum.inr (get_next_hour s.hours d1).1)
          else hourLoop s k (get_next_hour s.hours d1).1) = some x := by
      intro d1 ht
      split at ht
      next hc => rw [if_pos hc]; exact ht
      next hc => rw [if_neg hc]; exact ih k _ x hgk ht
    by_cases hv : is_hour_valid d s.hours = true
    · rw [if_pos hv] at h ⊢
      cases hm : minuteLoop s (g + 1) d with
      | none =>
        rw [hm] at h
        exact Option.noConfusion h
      | some y =>
        have hm' : minuteLoop s (k + 1) d = some y :=
          minuteLoop_mono s (g + 1) (k + 1) d y (by omega) hm
        rw [hm] at h
        rw [hm']
        cases y with
        | inl res => exact h
        | inr d1 => exact tail d1 h
    · rw [if_neg hv] at h ⊢
      exact tail d h

theorem dayLoop_mono (s : Schedule) :
    ∀ (f f' : Nat) (d : DateTime) (x : DateTime ⊕ DateTime), f ≤ f' →
      dayLoop s f d = some x → dayLoop s f' d = some x := by
  intro f
  induction f with
  | zero => intro f' d x _ h; cases h
  | succ g ih =>
    intro f' d x hle h
    obtain ⟨k, rfl⟩ : ∃ k, f' = k + 1 := ⟨f' - 1, by omega⟩
    have hgk : g ≤ k := by omega
    rw [dayLoop] at h
    rw [dayLoop]
    have tail : ∀ d1 : DateTime,
        (if (get_next_day_of_month s.days_of_month d1).2 &&
            !(is_month_valid (get_next_day_of_month s.days_of_month d1).1 s.months)
          then some (Sum.inr (get_next_day_of_month s.days_of_month d1).1)
          else dayLoop s g (get_next_day_of_month s.days_of_month d1).1) = some x →
        (if (get_next_day_of_month s.days_of_month d1).2 &&
            !(is_month_valid (get_next_day_of_month s.days_of_month d1).1 s.months)
          then some (Sum.inr (get_next_day_of_month s.days_of_month d1).1)
          else dayLoop s k (get_next_day_of_month s.days_of_month d1).1) = some x := by
      intro d1 ht
      split at ht
      next hc => rw [if_pos hc]; exact ht
      next hc => rw [if_neg hc]; exact ih k _ x hgk ht
    by_cases hv : is_day_of_month_valid d s.days_of_month = true
    · rw [if_pos hv] at h ⊢
      cases hm : hourLoop s (g + 1) d with
      | none =>
        rw [hm] at h
        exact Option.noConfusion h
      | some y =>
        have hm' : hourLoop s (k + 1) d = some y :=
          hourLoop_mono s (g + 1) (k + 1) d y (by omega) hm
        rw [hm] at h
        rw [hm']
        cases y with
        | inl res => exact h
        | inr d1 => exact tail d1 h
    · rw [if_neg hv] at h ⊢
      exact tail d h

theorem monthLoop_mono (s : Schedule) :
    ∀ (f f' : Nat) (d : DateTime) (r : DateTime), f ≤ f' →
      monthLoop s f d = some r → monthLoop s f' d = some r := by
  intro f
  induction f with
  | zero => intro f' d r _ h; cases h
  | succ g ih =>
    intro f' d r hle h
    obtain ⟨k, rfl⟩ : ∃ k, f' = k + 1 := ⟨f' - 1, by omega⟩
    have hgk : g ≤ k := by omega
    rw [monthLoop] at h
    rw [monthLoop]
    have tail : ∀ d1 : DateTime,
        (match get_next_month s.months (g + 1) d1 with
          | none => none
          | some d2 => monthLoop s g d2) = some r →
        (match get_next_month s.months (k + 1) d1 with
          | none => none
          | some d2 => monthLoop s k d2) = some r := by
      intro d1 ht
      cases hgm : get_next_month s.months (g + 1) d1 with
      | none =>
        rw [hgm] at ht
        exact Option.noConfusion ht
      | some d2 =>
        rw [hgm] at ht
        rw [get_next_month_mono s.months (g + 1) (k + 1) d1 d2 (by omega) hgm]
        exact ih k d2 r hgk ht
    by_cases hv : is_month_valid d s.months = true
    · rw [if_pos hv] at h ⊢
      cases hm : dayLoop s (g + 1) d with
      | none =>
        rw [hm] at h
        exact Option.noConfusion h
      | some y =>
        have hm' : dayLoop s (k + 1) d = some y :=
          dayLoop_mono s (g + 1) (k + 1) d y (by omega) hm
        rw [hm] at h
        rw [hm']
        cases y with
        | inl res => exact h
        | inr d1 => exact tail d1 h
    · rw [if_neg hv] at h ⊢
      exact tail d h

theorem get_next_match_mono (f f' : Nat) (s : Schedule) (d r : DateTime) (hle : f ≤ f')
    (h : get_next_match f s d = some r) : get_next_match f' s d = some r :=
  monthLoop_mono s f f' _ r hle h

/-! ### The January-1 schedule from a March instant (C9) -/

theorem testBit_two_of_ge {k : Nat} (h : 2 ≤ k) : Nat.testBit 2 k = false := by
  have h1 : Nat.testBit (2 ^ 1) k = false := Nat.testBit_two_pow_of_ne (by omega)
  simpa using h1

/-- `next_month` from a month `m < 12` is the start of month `m + 1`. -/
theorem next_month_eq_of (d : DateTime) (m : Nat) (hm : d.month = m) (hlt : m < 12) :
    next_month d = ⟨d.year, m + 1, 1, 0, 0, 0, 0⟩ := by
  rcases d with ⟨y, mo, da, h, mi, s, ss⟩
  have hmo : mo = m := hm
  subst hmo
  simp only [next_month, to_start_of_month, incMonth]
  rw [if_pos hlt]

/-- `next_month` from December is the start of January of the next year. -/
theorem next_month_eq_of12 (d : DateTime) (hm : d.month = 12) :
    next_month d = ⟨d.year + 1, 1, 1, 0, 0, 0, 0⟩ := by
  rcases d with ⟨y, mo, da, h, mi, s, ss⟩
  have hmo : mo = 12 := hm
  subst hmo
  simp only [next_month, to_start_of_month, incMonth]
  rw [if_neg (by omega)]

/-- With only the January bit set, `get_next_month` from any month `2..12`
walks month starts up to January 1 of the next year. -/
theorem get_next_month_to_jan :
    ∀ (f : Nat) (d : DateTime), 2 ≤ d.month → d.month ≤ 12 → 13 - d.month ≤ f →
      get_next_month 2 f d = some ⟨d.year + 1, 1, 1, 0, 0, 0, 0⟩ := by
  intro f
  induction f with
  | zero => intro d h2 h12 hf; omega
  | succ g ih =>
    intro d h2 h12 hf
    by_cases h12' : d.month = 12
    · rw [get_next_month, next_month_eq_of12 d h12']
      rw [if_pos (show is_month_valid (⟨d.year + 1, 1, 1, 0, 0, 0, 0⟩ : DateTime) 2 = true by
        rw [is_month_valid_eq]; exact (by decide : Nat.testBit 2 1 = true))]
    · have hlt : d.month < 12 := by omega
      rw [get_next_month, next_month_eq_of d d.month rfl hlt]
      rw [if_neg (by rw [is_month_valid_eq]; simp [testBit_two_of_ge (show 2 ≤ d.month + 1 by omega)])]
      have hr := ih ⟨d.year, d.month + 1, 1, 0, 0, 0, 0⟩ (by simp; omega) (by simp; omega)
        (by simp; omega)
      simpa using hr

/-- A month-level search step of the outer loop: month not permitted, so fall
through to `get_next_month` and continue there. -/
theorem monthLoop_reach (s : Schedule) (f : Nat) (d1 d2 r : DateTime)
    (hm : is_month_valid d1 s.months = false)
    (hgm : get_next_month s.months (f + 1) d1 = some d2)
    (hrest : monthLoop s f d2 = some r) :
    monthLoop s (f + 1) d1 = some r := by
  rw [monthLoop, if_neg (by simp [hm])]
  have hred : (match get_next_month s.months (f + 1) d1 with
      | none => none
      | some d2 => monthLoop s f d2) = some r := by
    rw [hgm]; exact hrest
  exact hred

/-- When all four constraints hold at the working instant, the search returns
it immediately. -/
theorem monthLoop_hit (s : Schedule) (f : Nat) (d : DateTime)
    (hm : is_month_valid d s.months = true)
    (hd : is_day_of_month_valid d s.days_of_month = true)
    (hh : is_hour_valid d s.hours = true)
    (hmin : is_minute_valid d s.minutes = true) :
    monthLoop s (f + 1) d = some d := by
  have h1 : minuteLoop s (f + 1) d = some (Sum.inl d) := by
    rw [minuteLoop, if_pos hmin]
  have h2 : hourLoop s (f + 1) d = some (Sum.inl d) := by
    rw [hourLoop, if_pos hh, h1]
  have h3 : dayLoop s (f + 1) d = some (Sum.inl d) := by
    rw [dayLoop, if_pos hd, h2]
  rw [monthLoop, if_pos hm, h3]

/-- For the schedule `0 0 1 1 *`, the outer loop from any instant in month
`2..12` lands on January 1 of the next year at 00:00. -/
theorem monthLoop_0011 (d1 : DateTime) (h2 : 2 ≤ d1.month) (h12 : d1.month ≤ 12) :
    monthLoop ⟨2, 2, 1, 1⟩ 12 d1 = some ⟨d1.year + 1, 1, 1, 0, 0, 0, 0⟩ := by
  refine monthLoop_reach ⟨2, 2, 1, 1⟩ 11 d1 ⟨d1.year + 1, 1, 1, 0, 0, 0, 0⟩ _ ?_ ?_ ?_
  · rw [is_month_valid_eq]
    exact testBit_two_of_ge h2
  · exact get_next_month_to_jan 12 d1 h2 h12 (by omega)
  · refine monthLoop_hit ⟨2, 2, 1, 1⟩ 10 _ ?_ ?_ ?_ ?_
    · rw [is_month_valid_eq]; exact (by decide : Nat.testBit 2 1 = true)
    · rw [is_day_of_month_valid_eq]; exact (by decide : Nat.testBit 2 1 = true)
    · rw [is_hour_valid_eq]; exact (by decide : Nat.testBit 1 0 = true)
    · rw [is_minute_valid_eq]; exact (by decide : Nat.testBit 1 0 = true)

/-- One minute past an instant in March is still in March (same year), except
from the very last minute of March, where it is April 1 at 00:00. -/
theorem march_next_minute (d : DateTime) (hm : d.month = 3) :
    ((next_minute d).1.month = 3 ∧ (next_minute d).1.year = d.year) ∨
      (next_minute d).1 = ⟨d.year, 4, 1, 0, 0, 0, 0⟩ := by
  rcases d with ⟨y, mo, da, h, mi, s, ss⟩
  have hmo : mo = 3 := hm
  subst hmo
  simp only [next_minute, to_start_of_minute, incMinute, incHour, incDay, incMonth]
  split_ifs <;> simp_all

/-- C9: for the schedule parsed from `0 0 1 1 *` (minute 0, hour 0, day 1,
January) and any valid starting instant in March of year `Y`, the search
returns January 1 of year `Y + 1` at 00:00 — and whatever the fuel, if the
search returns at all, that is what it returns. -/
theorem C9_march_to_january (d : DateTime) (hv : d.Valid) (hm : d.month = 3) :
    Schedule.new "0 0 1 1 *".data = .ok ⟨2, 2, 1, 1⟩ ∧
      get_next_match 12 ⟨2, 2, 1, 1⟩ d = some ⟨d.year + 1, 1, 1, 0, 0, 0, 0⟩ ∧
      ∀ (fuel : Nat) (r : DateTime), get_next_match fuel ⟨2, 2, 1, 1⟩ d = some r →
        r = ⟨d.year + 1, 1, 1, 0, 0, 0, 0⟩ := by
  have hmain : get_next_match 12 ⟨2, 2, 1, 1⟩ d = some ⟨d.year + 1, 1, 1, 0, 0, 0, 0⟩ := by
    rw [get_next_match]
    rcases march_next_minute d hm with ⟨h3, hy⟩ | heq
    · rw [← hy]
      exact monthLoop_0011 _ (by omega) (by omega)
    · rw [heq]
      have hr := monthLoop_0011 ⟨d.year, 4, 1, 0, 0, 0, 0⟩ (by simp) (by simp)
      simpa using hr
  refine ⟨by decide, hmain, ?_⟩
  intro fuel r h
  have h1 := get_next_match_mono fuel (max fuel 12) ⟨2, 2, 1, 1⟩ d r (le_max_left _ _) h
  have h2 := get_next_match_mono 12 (max fuel 12) ⟨2, 2, 1, 1⟩ d _ (le_max_right _ _) hmain
  rw [h1] at h2
  exact Option.some_inj.mp h2

/-- Witness for C9: starting at 2023-03-15 10:30:45.000000123. -/
theorem C9_witness :
    get_next_match 12 ⟨2, 2, 1, 1⟩ ⟨2023, 3, 15, 10, 30, 45, 123⟩ =
      some ⟨2024, 1, 1, 0, 0, 0, 0⟩ :=
  (C9_march_to_january ⟨2023, 3, 15, 10, 30, 45, 123⟩ (by decide) rfl).2.1

/-! ### C4: the bit-0-only schedule never terminates -/

theorem testBit_one_of_ge {k : Nat} (h : 1 ≤ k) : Nat.testBit 1 k = false := by
  have h1 : Nat.testBit (2 ^ 0) k = false := Nat.testBit_two_pow_of_ne (by omega)
  simpa using h1

theorem next_month_month_range (d : DateTime) :
    1 ≤ (next_month d).month ∧ (next_month d).month ≤ 12 :=
  incMonth_month_range (to_start_of_month d)

theorem get_next_month_bit0_none : ∀ (f : Nat) (d : DateTime), get_next_month 1 f d = none := by
  intro f
  induction f with
  | zero => intro d; rfl
  | succ g ih =>
    intro d
    have hc : ¬(is_month_valid (next_month d) 1 = true) := by
      rw [is_month_valid_eq]
      simp [testBit_one_of_ge (next_month_month_range d).1]
    rw [get_next_month, if_neg hc]
    exact ih (next_month d)

theorem monthLoop_bit0_none : ∀ (f : Nat) (d : DateTime), 1 ≤ d.month →
    monthLoop ⟨1, 1, 1, 1⟩ f d = none := by
  intro f d h1
  cases f with
  | zero => rfl
  | succ g =>
    have hc : ¬(is_month_valid d (Schedule.mk 1 1 1 1).months = true) := by
      rw [is_month_valid_eq]
      simp [show ((⟨1, 1, 1, 1⟩ : Schedule).months) = 1 from rfl, testBit_one_of_ge h1]
    rw [monthLoop, if_neg hc]
    have hred : (match get_next_month (Schedule.mk 1 1 1 1).months (g + 1) d with
        | none => none
        | some d2 => monthLoop ⟨1, 1, 1, 1⟩ g d2) = (none : Option DateTime) := by
      rw [show get_next_month (Schedule.mk 1 1 1 1).months (g + 1) d = none from
        get_next_month_bit0_none (g + 1) d]
    exact hred

/-- C4 counterexample: the schedule parsed from `0 0 0 0 *` has at least one
bit set in each of its four bit-fields (bit 0 of each), yet `get_next_match`
never returns from 2023-06-05 12:00: months bit 0 matches no real month
(months are 1-based), so the month loop runs forever. -/
theorem C4_counterexample :
    Schedule.new "0 0 0 0 *".data = .ok ⟨1, 1, 1, 1⟩ ∧
      (Schedule.mk 1 1 1 1).months ≠ 0 ∧ (Schedule.mk 1 1 1 1).days_of_month ≠ 0 ∧
      (Schedule.mk 1 1 1 1).hours ≠ 0 ∧ (Schedule.mk 1 1 1 1).minutes ≠ 0 ∧
      ¬Terminates ⟨1, 1, 1, 1⟩ ⟨2023, 6, 5, 12, 0, 0, 0⟩ := by
  refine ⟨by decide, by decide, by decide, by decide, by decide, ?_⟩
  rintro ⟨fuel, r, h⟩
  rw [get_next_match] at h
  rw [monthLoop_bit0_none fuel _ (by decide)] at h
  cases h

/-! ### Shapes of the hunting-step outputs -/

@[simp] theorem next_hour_minute (d : DateTime) : (next_hour d).1.minute = 0 := by
  simp [next_hour, to_start_of_hour]

@[simp] theorem next_day_minute (d : DateTime) : (next_day d).1.minute = 0 := by
  simp [next_day, to_start_of_day]

@[simp] theorem next_day_hour (d : DateTime) : (next_day d).1.hour = 0 := by
  simp [next_day, to_start_of_day]

@[simp] theorem next_month_minute (d : DateTime) : (next_month d).minute = 0 := by
  simp [next_month, to_start_of_month]

@[simp] theorem next_month_hour (d : DateTime) : (next_month d).hour = 0 := by
  simp [next_month, to_start_of_month]

@[simp] theorem next_month_day (d : DateTime) : (next_month d).day = 1 := by
  simp [next_month, to_start_of_month]

theorem minuteHuntGo_zero (v : Nat) (d : DateTime) : minuteHuntGo 0 v d = next_minute d := by
  rw [minuteHuntGo]; split <;> rfl

theorem hourHuntGo_zero (v : Nat) (d : DateTime) : hourHuntGo 0 v d = next_hour d := by
  rw [hourHuntGo]; split <;> rfl

theorem dayHuntGo_zero (v : Nat) (d : DateTime) : dayHuntGo 0 v d = next_day d := by
  rw [dayHuntGo]; split <;> rfl

/-! ### Characterisation of the minute hunt -/

/-- When the minute hunt exits without a carry, it sits on a permitted minute
of the same hour (and day, month, year) it started in. -/
theorem minuteHuntGo_not_looped (v : Nat) :
    ∀ (gas : Nat) (d : DateTime), 59 ≤ d.minute + gas →
      (minuteHuntGo gas v d).2 = false →
      is_minute_valid (minuteHuntGo gas v d).1 v = true ∧
      (minuteHuntGo gas v d).1.year = d.year ∧ (minuteHuntGo gas v d).1.month = d.month ∧
      (minuteHuntGo gas v d).1.day = d.day ∧ (minuteHuntGo gas v d).1.hour = d.hour := by
  intro gas
  induction gas with
  | zero =>
    intro d hinv h
    rw [minuteHuntGo_zero] at h
    rw [next_minute_of_ge (by omega)] at h
    cases h
  | succ g ih =>
    intro d hinv h
    rw [minuteHuntGo] at h ⊢
    by_cases hmi : d.minute < 59
    · rw [next_minute_of_lt hmi] at h ⊢
      by_cases hv : is_minute_valid ({d with minute := d.minute + 1, second := 0, subsec := 0} :
          DateTime) v = true
      · rw [if_pos (by simp [hv])] at h ⊢
        exact ⟨hv, rfl, rfl, rfl, rfl⟩
      · rw [if_neg (by simp [hv])] at h ⊢
        have hr := ih ({d with minute := d.minute + 1, second := 0, subsec := 0})
          (by simp; omega) h
        simpa using hr
    · exfalso
      rw [next_minute_of_ge (by omega)] at h
      rw [if_pos (by simp)] at h
      cases h

/-- When the minute hunt reports a carry, it stops at the first instant of
the next hour. -/
theorem minuteHuntGo_looped (v : Nat) :
    ∀ (gas : Nat) (d : DateTime), (minuteHuntGo gas v d).2 = true →
      (minuteHuntGo gas v d).1 = incHour ⟨d.year, d.month, d.day, d.hour, 0, 0, 0⟩ := by
  intro gas
  induction gas with
  | zero =>
    intro d h
    rw [minuteHuntGo_zero] at h ⊢
    by_cases hmi : d.minute < 59
    · rw [next_minute_of_lt hmi] at h; cases h
    · rw [next_minute_of_ge (by omega)]
  | succ g ih =>
    intro d h
    rw [minuteHuntGo] at h ⊢
    by_cases hmi : d.minute < 59
    · rw [next_minute_of_lt hmi] at h ⊢
      by_cases hv : is_minute_valid ({d with minute := d.minute + 1, second := 0, subsec := 0} :
          DateTime) v = true
      · rw [if_pos (by simp [hv])] at h
        cases h
      · rw [if_neg (by simp [hv])] at h ⊢
        have hr := ih ({d with minute := d.minute + 1, second := 0, subsec := 0}) h
        simpa using hr
    · rw [next_minute_of_ge (by omega)] at h ⊢
      rw [if_pos (by simp)]

/-- If some later minute of the same hour is permitted, the minute hunt finds
one without a carry. -/
theorem minuteHuntGo_found (v : Nat) :
    ∀ (gas : Nat) (d : DateTime), 59 ≤ d.minute + gas →
      (∃ m, d.minute < m ∧ m ≤ 59 ∧ v.testBit m = true) →
      (minuteHuntGo gas v d).2 = false := by
  intro gas
  induction gas with
  | zero =>
    intro d hinv hex
    obtain ⟨m, hm1, hm2, -⟩ := hex
    omega
  | succ g ih =>
    intro d hinv hex
    obtain ⟨m, hm1, hm2, hm3⟩ := hex
    rw [minuteHuntGo]
    by_cases hmi : d.minute < 59
    · rw [next_minute_of_lt hmi]
      by_cases hv : is_minute_valid ({d with minute := d.minute + 1, second := 0, subsec := 0} :
          DateTime) v = true
      · rw [if_pos (by simp [hv])]
      · rw [if_neg (by simp [hv])]
        have hm4 : d.minute + 1 < m := by
          rcases Nat.lt_or_ge (d.minute + 1) m with hlt | hge
          · exact hlt
          · have hmeq : m = d.minute + 1 := by omega
            exfalso
            refine hv ?_
            rw [is_minute_valid_eq]
            exact hmeq ▸ hm3
        exact ih _ (by simp; omega) ⟨m, by simpa using hm4, hm2, hm3⟩
    · omega

/-! ### Characterisation of the hour hunt -/

/-- When the hour hunt exits without a carry, it sits at minute 0 of a
permitted hour of the same day (and month, year). -/
theorem hourHuntGo_not_looped (v : Nat) :
    ∀ (gas : Nat) (d : DateTime), 23 ≤ d.hour + gas →
      (hourHuntGo gas v d).2 = false →
      is_hour_valid (hourHuntGo gas v d).1 v = true ∧
      (hourHuntGo gas v d).1.year = d.year ∧ (hourHuntGo gas v d).1.month = d.month ∧
      (hourHuntGo gas v d).1.day = d.day ∧ (hourHuntGo gas v d).1.minute = 0 := by
  intro gas
  induction gas with
  | zero =>
    intro d hinv h
    rw [hourHuntGo_zero] at h
    rw [next_hour_of_ge (by omega)] at h
    cases h
  | succ g ih =>
    intro d hinv h
    rw [hourHuntGo] at h ⊢
    by_cases hh : d.hour < 23
    · rw [next_hour_of_lt hh] at h ⊢
      by_cases hv : is_hour_valid
          ({d with hour := d.hour + 1, minute := 0, second := 0, subsec := 0} : DateTime)
          v = true
      · rw [if_pos (by simp [hv])] at h ⊢
        exact ⟨hv, rfl, rfl, rfl, rfl⟩
      · rw [if_neg (by simp [hv])] at h ⊢
        have hr := ih ({d with hour := d.hour + 1, minute := 0, second := 0, subsec := 0})
          (by simp; omega) h
        simpa using hr
    · exfalso
      rw [next_hour_of_ge (by omega)] at h
      rw [if_pos (by simp)] at h
      cases h

/-- When the hour hunt reports a carry, it stops at the first instant of the
next day. -/
theorem hourHuntGo_looped (v : Nat) :
    ∀ (gas : Nat) (d : DateTime), (hourHuntGo gas v d).2 = true →
      (hourHuntGo gas v d).1 = incDay ⟨d.year, d.month, d.day, 0, 0, 0, 0⟩ := by
  intro gas
  induction gas with
  | zero =>
    intro d h
    rw [hourHuntGo_zero] at h ⊢
    by_cases hh : d.hour < 23
    · rw [next_hour_of_lt hh] at h; cases h
    · rw [next_hour_of_ge (by omega)]
  | succ g ih =>
    intro d h
    rw [hourHuntGo] at h ⊢
    by_cases hh : d.hour < 23
    · rw [next_hour_of_lt hh] at h ⊢
      by_cases hv : is_hour_valid
          ({d with hour := d.hour + 1, minute := 0, second := 0, subsec := 0} : DateTime)
          v = true
      · rw [if_pos (by simp [hv])] at h
        cases h
      · rw [if_neg (by simp [hv])] at h ⊢
        have hr := ih ({d with hour := d.hour + 1, minute := 0, second := 0, subsec := 0}) h
        simpa using hr
    · rw [next_hour_of_ge (by omega)] at h ⊢
      rw [if_pos (by simp)]

/-- If some later hour of the same day is permitted, the hour hunt finds one
without a carry. -/
theorem hourHuntGo_found (v : Nat) :
    ∀ (gas : Nat) (d : DateTime), 23 ≤ d.hour + gas →
      (∃ m, d.hour < m ∧ m ≤ 23 ∧ v.testBit m = true) →
      (hourHuntGo gas v d).2 = false := by
  intro gas
  induction gas with
  | zero =>
    intro d hinv hex
    obtain ⟨m, hm1, hm2, -⟩ := hex
    omega
  | succ g ih =>
    intro d hinv hex
    obtain ⟨m, hm1, hm2, hm3⟩ := hex
    rw [hourHuntGo]
    by_cases hh : d.hour < 23
    · rw [next_hour_of_lt hh]
      by_cases hv : is_hour_valid
          ({d with hour := d.hour + 1, minute := 0, second := 0, subsec := 0} : DateTime)
          v = true
      · rw [if_pos (by simp [hv])]
      · rw [if_neg (by simp [hv])]
        have hm4 : d.hour + 1 < m := by
          rcases Nat.lt_or_ge (d.hour + 1) m with hlt | hge
          · exact hlt
          · have hmeq : m = d.hour + 1 := by omega
            exfalso
            refine hv ?_
            rw [is_hour_valid_eq]
            exact hmeq ▸ hm3
        exact ih _ (by simp; omega) ⟨m, by simpa using hm4, hm2, hm3⟩
    · omega

/-! ### Characterisation of the day hunt -/

/-- When the day hunt exits without a carry, it sits at 00:00 of a permitted
day of the same month (and year). -/
theorem dayHuntGo_not_looped (v : Nat) :
    ∀ (gas : Nat) (d : DateTime), daysInMonth d.year d.month ≤ d.day + gas →
      (dayHuntGo gas v d).2 = false →
      is_day_of_month_valid (dayHuntGo gas v d).1 v = true ∧
      (dayHuntGo gas v d).1.year = d.year ∧ (dayHuntGo gas v d).1.month = d.month ∧
      (dayHuntGo gas v d).1.hour = 0 ∧ (dayHuntGo gas v d).1.minute = 0 := by
  intro gas
  induction gas with
  | zero =>
    intro d hinv h
    rw [dayHuntGo_zero] at h
    rw [next_day_of_ge (by omega)] at h
    cases h
  | succ g ih =>
    intro d hinv h
    rw [dayHuntGo] at h ⊢
    by_cases hd : d.day < daysInMonth d.year d.month
    · rw [next_day_of_lt hd] at h ⊢
      by_cases hv : is_day_of_month_valid
          ({d with day := d.day + 1, hour := 0, minute := 0, second := 0, subsec := 0} : DateTime)
          v = true
      · rw [if_pos (by simp [hv])] at h ⊢
        exact ⟨hv, rfl, rfl, rfl, rfl⟩
      · rw [if_neg (by simp [hv])] at h ⊢
        have hr := ih
          ({d with day := d.day + 1, hour := 0, minute := 0, second := 0, subsec := 0})
          (by simp; omega) h
        simpa using hr
    · exfalso
      rw [next_day_of_ge (by omega)] at h
      rw [if_pos (by simp)] at h
      cases h

/-- When the day hunt reports a carry, it stops at the first instant of the
next month. -/
theorem dayHuntGo_looped (v : Nat) :
    ∀ (gas : Nat) (d : DateTime), (dayHuntGo gas v d).2 = true →
      (dayHuntGo gas v d).1 = incMonth ⟨d.year, d.month, 1, 0, 0, 0, 0⟩ := by
  intro gas
  induction gas with
  | zero =>
    intro d h
    rw [dayHuntGo_zero] at h ⊢
    by_cases hd : d.day < daysInMonth d.year d.month
    · rw [next_day_of_lt hd] at h; cases h
    · rw [next_day_of_ge (by omega)]
  | succ g ih =>
    intro d h
    rw [dayHuntGo] at h ⊢
    by_cases hd : d.day < daysInMonth d.year d.month
    · rw [next_day_of_lt hd] at h ⊢
      by_cases hv : is_day_of_month_valid
          ({d with day := d.day + 1, hour := 0, minute := 0, second := 0, subsec := 0} : DateTime)
          v = true
      · rw [if_pos (by simp [hv])] at h
        cases h
      · rw [if_neg (by simp [hv])] at h ⊢
        have hr := ih
          ({d with day := d.day + 1, hour := 0, minute := 0, second := 0, subsec := 0}) h
        simpa using hr
    · rw [next_day_of_ge (by omega)] at h ⊢
      rw [if_pos (by simp)]

/-- If some later day of the same month is permitted, the day hunt finds one
without a carry. -/
theorem dayHuntGo_found (v : Nat) :
    ∀ (gas : Nat) (d : DateTime), daysInMonth d.year d.month ≤ d.day + gas →
      (∃ m, d.day < m ∧ m ≤ daysInMonth d.year d.month ∧ v.testBit m = true) →
      (dayHuntGo gas v d).2 = false := by
  intro gas
  induction gas with
  | zero =>
    intro d hinv hex
    obtain ⟨m, hm1, hm2, -⟩ := hex
    omega
  | succ g ih =>
    intro d hinv hex
    obtain ⟨m, hm1, hm2, hm3⟩ := hex
    rw [dayHuntGo]
    by_cases hd : d.day < daysInMonth d.year d.month
    · rw [next_day_of_lt hd]
      by_cases hv : is_day_of_month_valid
          ({d with day := d.day + 1, hour := 0, minute := 0, second := 0, subsec := 0} : DateTime)
          v = true
      · rw [if_pos (by simp [hv])]
      · rw [if_neg (by simp [hv])]
        have hm4 : d.day + 1 < m := by
          rcases Nat.lt_or_ge (d.day + 1) m with hlt | hge
          · exact hlt
          · have hmeq : m = d.day + 1 := by omega
            exfalso
            refine hv ?_
            rw [is_day_of_month_valid_eq]
            exact hmeq ▸ hm3
        refine ih _ (by simp; omega) ⟨m, by simpa using hm4, by simpa using hm2, hm3⟩
    · omega

theorem get_next_minute_not_looped (v : Nat) (d : DateTime)
    (h : (get_next_minute v d).2 = false) :
    is_minute_valid (get_next_minute v d).1 v = true ∧
    (get_next_minute v d).1.year = d.year ∧ (get_next_minute v d).1.month = d.month ∧
    (get_next_minute v d).1.day = d.day ∧ (get_next_minute v d).1.hour = d.hour :=
  minuteHuntGo_not_looped v (59 - d.minute) d (by omega) h

theorem get_next_minute_looped (v : Nat) (d : DateTime)
    (h : (get_next_minute v d).2 = true) :
    (get_next_minute v d).1 = incHour ⟨d.year, d.month, d.day, d.hour, 0, 0, 0⟩ :=
  minuteHuntGo_looped v (59 - d.minute) d h

theorem get_next_minute_found (v : Nat) (d : DateTime)
    (h : ∃ m, d.minute < m ∧ m ≤ 59 ∧ v.testBit m = true) :
    (get_next_minute v d).2 = false :=
  minuteHuntGo_found v (59 - d.minute) d (by omega) h

theorem get_next_hour_not_looped (v : Nat) (d : DateTime)
    (h : (get_next_hour v d).2 = false) :
    is_hour_valid (get_next_hour v d).1 v = true ∧
    (get_next_hour v d).1.year = d.year ∧ (get_next_hour v d).1.month = d.month ∧
    (get_next_hour v d).1.day = d.day ∧ (get_next_hour v d).1.minute = 0 :=
  hourHuntGo_not_looped v (23 - d.hour) d (by omega) h

theorem get_next_hour_looped (v : Nat) (d : DateTime)
    (h : (get_next_hour v d).2 = true) :
    (get_next_hour v d).1 = incDay ⟨d.year, d.month, d.day, 0, 0, 0, 0⟩ :=
  hourHuntGo_looped v (23 - d.hour) d h

theorem get_next_hour_found (v : Nat) (d : DateTime)
    (h : ∃ m, d.hour < m ∧ m ≤ 23 ∧ v.testBit m = true) :
    (get_next_hour v d).2 = false :=
  hourHuntGo_found v (23 - d.hour) d (by omega) h

theorem get_next_day_of_month_not_looped (v : Nat) (d : DateTime)
    (h : (get_next_day_of_month v d).2 = false) :
    is_day_of_month_valid (get_next_day_of_month v d).1 v = true ∧
    (get_next_day_of_month v d).1.year = d.year ∧
    (get_next_day_of_month v d).1.month = d.month ∧
    (get_next_day_of_month v d).1.hour = 0 ∧ (get_next_day_of_month v d).1.minute = 0 :=
  dayHuntGo_not_looped v (daysInMonth d.year d.month - d.day) d (by omega) h

theorem get_next_day_of_month_looped (v : Nat) (d : DateTime)
    (h : (get_next_day_of_month v d).2 = true) :
    (get_next_day_of_month v d).1 = incMonth ⟨d.year, d.month, 1, 0, 0, 0, 0⟩ :=
  dayHuntGo_looped v (daysInMonth d.year d.month - d.day) d h

theorem get_next_day_of_month_found (v : Nat) (d : DateTime)
    (h : ∃ m, d.day < m ∧ m ≤ daysInMonth d.year d.month ∧ v.testBit m = true) :
    (get_next_day_of_month v d).2 = false :=
  dayHuntGo_found v (daysInMonth d.year d.month - d.day) d (by omega) h

/-! ### Adequacy of the nested loops under realisable schedules -/

/-- From minute 0 with a permitted minute somewhere in `0..59`, the minute
loop returns a match (it never leaves the hour). -/
theorem minuteLoop_zero_hit (s : Schedule) :
    ∀ (f : Nat) (d : DateTime), 2 ≤ f → d.minute = 0 →
      (∃ m, m ≤ 59 ∧ s.minutes.testBit m = true) →
      ∃ r, minuteLoop s f d = some (Sum.inl r) := by
  intro f d hf h0 hex
  obtain ⟨k, rfl⟩ : ∃ k, f = k + 1 := ⟨f - 1, by omega⟩
  rw [minuteLoop]
  by_cases hb : is_minute_valid d s.minutes = true
  · rw [if_pos hb]; exact ⟨d, rfl⟩
  · rw [if_neg hb]
    obtain ⟨m, hm2, hm3⟩ := hex
    have hm0 : m ≠ 0 := by
      rintro rfl
      exact hb (by rw [is_minute_valid_eq, h0]; exact hm3)
    have hnl : (get_next_minute s.minutes d).2 = false :=
      get_next_minute_found s.minutes d ⟨m, by omega, hm2, hm3⟩
    have hval := get_next_minute_not_looped s.minutes d hnl
    rw [if_neg (by simp [hnl])]
    obtain ⟨k2, rfl⟩ : ∃ k2, k = k2 + 1 := ⟨k - 1, by omega⟩
    rw [minuteLoop, if_pos hval.1]
    exact ⟨_, rfl⟩

/-- With a permitted minute somewhere in `0..59`, the minute loop always
returns (a match or a break into an unpermitted hour). -/
theorem minuteLoop_adequate (s : Schedule) :
    ∀ (f : Nat) (d : DateTime), 3 ≤ f →
      (∃ m, m ≤ 59 ∧ s.minutes.testBit m = true) →
      ∃ x, minuteLoop s f d = some x := by
  intro f d hf hex
  obtain ⟨k, rfl⟩ : ∃ k, f = k + 1 := ⟨f - 1, by omega⟩
  rw [minuteLoop]
  by_cases hb : is_minute_valid d s.minutes = true
  · rw [if_pos hb]; exact ⟨_, rfl⟩
  · rw [if_neg hb]
    cases hl : (get_next_minute s.minutes d).2 with
    | false =>
      have hval := get_next_minute_not_looped s.minutes d hl
      rw [if_neg (by simp [hl])]
      obtain ⟨k2, rfl⟩ : ∃ k2, k = k2 + 1 := ⟨k - 1, by omega⟩
      rw [minuteLoop, if_pos hval.1]
      exact ⟨_, rfl⟩
    | true =>
      by_cases hh : is_hour_valid (get_next_minute s.minutes d).1 s.hours = true
      · rw [if_neg (by simp [hl, hh])]
        have hmin0 : (get_next_minute s.minutes d).1.minute = 0 := by
          rw [get_next_minute_looped s.minutes d hl]
          simp
        obtain ⟨r, hr⟩ := minuteLoop_zero_hit s k _ (by omega) hmin0 hex
        exact ⟨Sum.inl r, hr⟩
      · rw [if_pos (by simp [hl, hh])]
        exact ⟨_, rfl⟩

/-- From the very start of a day with permitted hours and minutes somewhere
in range, the hour loop returns a match. -/
theorem hourLoop_daystart_hit (s : Schedule) :
    ∀ (f : Nat) (d : DateTime), 4 ≤ f → d.hour = 0 → d.minute = 0 →
      (∃ m, m ≤ 23 ∧ s.hours.testBit m = true) →
      (∃ m, m ≤ 59 ∧ s.minutes.testBit m = true) →
      ∃ r, hourLoop s f d = some (Sum.inl r) := by
  intro f d hf h0 hm0 hexh hexm
  obtain ⟨k, rfl⟩ : ∃ k, f = k + 1 := ⟨f - 1, by omega⟩
  rw [hourLoop]
  by_cases hb : is_hour_valid d s.hours = true
  · rw [if_pos hb]
    obtain ⟨r, hr⟩ := minuteLoop_zero_hit s (k + 1) d (by omega) hm0 hexm
    rw [hr]
    exact ⟨r, rfl⟩
  · rw [if_neg hb]
    obtain ⟨hh, hh2, hh3⟩ := hexh
    have hh0 : hh ≠ 0 := by
      rintro rfl
      exact hb (by rw [is_hour_valid_eq, h0]; exact hh3)
    have hnl : (get_next_hour s.hours d).2 = false :=
      get_next_hour_found s.hours d ⟨hh, by omega, hh2, hh3⟩
    have hval := get_next_hour_not_looped s.hours d hnl
    obtain ⟨k2, rfl⟩ : ∃ k2, k = k2 + 1 := ⟨k - 1, by omega⟩
    have hrec : ∃ r, hourLoop s (k2 + 1) (get_next_hour s.hours d).1 = some (Sum.inl r) := by
      rw [hourLoop, if_pos hval.1]
      obtain ⟨r, hr⟩ := minuteLoop_zero_hit s (k2 + 1) _ (by omega) hval.2.2.2.2 hexm
      rw [hr]
      exact ⟨r, rfl⟩
    obtain ⟨r, hr⟩ := hrec
    refine ⟨r, ?_⟩
    have hfin : (if (get_next_hour s.hours d).2 &&
        !(is_day_of_month_valid (get_next_hour s.hours d).1 s.days_of_month)
        then some (Sum.inr (get_next_hour s.hours d).1)
        else hourLoop s (k2 + 1) (get_next_hour s.hours d).1) = some (Sum.inl r) := by
      rw [if_neg (by simp [hnl]), hr]
    exact hfin

/-- With permitted hours and minutes somewhere in range, the hour loop always
returns — a match, or a break at the (unpermitted) first day of a new day. -/
theorem hourLoop_adequate (s : Schedule) :
    ∀ (f : Nat) (d : DateTime), 6 ≤ f →
      (∃ m, m ≤ 23 ∧ s.hours.testBit m = true) →
      (∃ m, m ≤ 59 ∧ s.minutes.testBit m = true) →
      ∃ x, hourLoop s f d = some x ∧
        ∀ r, x = Sum.inr r → r.hour = 0 ∧ r.minute = 0 ∧
          is_day_of_month_valid r s.days_of_month = false := by
  intro f d hf hexh hexm
  obtain ⟨k, rfl⟩ : ∃ k, f = k + 1 := ⟨f - 1, by omega⟩
  rw [hourLoop]
  have tail : ∀ d1 : DateTime, ∃ x,
      (if (get_next_hour s.hours d1).2 &&
          !(is_day_of_month_valid (get_next_hour s.hours d1).1 s.days_of_month)
        then some (Sum.inr (get_next_hour s.hours d1).1)
        else hourLoop s k (get_next_hour s.hours d1).1) = some x ∧
      ∀ r, x = Sum.inr r → r.hour = 0 ∧ r.minute = 0 ∧
        is_day_of_month_valid r s.days_of_month = false := by
    intro d1
    cases hl : (get_next_hour s.hours d1).2 with
    | false =>
      have hval := get_next_hour_not_looped s.hours d1 hl
      rw [if_neg (by simp [hl])]
      obtain ⟨k2, rfl⟩ : ∃ k2, k = k2 + 1 := ⟨k - 1, by omega⟩
      rw [hourLoop, if_pos hval.1]
      obtain ⟨r, hr⟩ := minuteLoop_zero_hit s (k2 + 1) _ (by omega) hval.2.2.2.2 hexm
      rw [hr]
      exact ⟨Sum.inl r, rfl, fun r' h => Sum.noConfusion h⟩
    | true =>
      have heq := get_next_hour_looped s.hours d1 hl
      by_cases hdv : is_day_of_month_valid (get_next_hour s.hours d1).1 s.days_of_month = true
      · rw [if_neg (by simp [hl, hdv])]
        have hh0 : (get_next_hour s.hours d1).1.hour = 0 := by rw [heq]; simp
        have hmm0 : (get_next_hour s.hours d1).1.minute = 0 := by rw [heq]; simp
        obtain ⟨r, hr⟩ := hourLoop_daystart_hit s k _ (by omega) hh0 hmm0 hexh hexm
        exact ⟨Sum.inl r, hr, fun r' h => Sum.noConfusion h⟩
      · rw [if_pos (by simp [hl, hdv])]
        refine ⟨Sum.inr (get_next_hour s.hours d1).1, rfl, ?_⟩
        rintro r' hx
        injection hx with hx1
        subst hx1
        refine ⟨by rw [heq]; simp, by rw [heq]; simp, ?_⟩
        simpa using hdv
  by_cases hb : is_hour_valid d s.hours = true
  · rw [if_pos hb]
    obtain ⟨y, hy⟩ := minuteLoop_adequate s (k + 1) d (by omega) hexm
    rw [hy]
    cases y with
    | inl res => exact ⟨Sum.inl res, rfl, fun r' h => Sum.noConfusion h⟩
    | inr d1 => exact tail d1
  · rw [if_neg hb]
    exact tail d

/-- From the first instant of a month with a permitted day in `1..28` (a day
that exists in every month) and permitted hours/minutes, the day loop returns
a match without leaving the month. -/
theorem dayLoop_monthstart_hit (s : Schedule) :
    ∀ (f : Nat) (d : DateTime), 6 ≤ f → d.day = 1 → d.hour = 0 → d.minute = 0 →
      (∃ m, 1 ≤ m ∧ m ≤ 28 ∧ s.days_of_month.testBit m = true) →
      (∃ m, m ≤ 23 ∧ s.hours.testBit m = true) →
      (∃ m, m ≤ 59 ∧ s.minutes.testBit m = true) →
      ∃ r, dayLoop s f d = some (Sum.inl r) := by
  intro f d hf h1 hh0 hm0 hexd hexh hexm
  obtain ⟨k, rfl⟩ : ∃ k, f = k + 1 := ⟨f - 1, by omega⟩
  rw [dayLoop]
  by_cases hb : is_day_of_month_valid d s.days_of_month = true
  · rw [if_pos hb]
    obtain ⟨r, hr⟩ := hourLoop_daystart_hit s (k + 1) d (by omega) hh0 hm0 hexh hexm
    rw [hr]
    exact ⟨r, rfl⟩
  · rw [if_neg hb]
    obtain ⟨dd, hd1, hd2, hd3⟩ := hexd
    have hdne : dd ≠ 1 := by
      rintro rfl
      exact hb (by rw [is_day_of_month_valid_eq, h1]; exact hd3)
    have hnl : (get_next_day_of_month s.days_of_month d).2 = false := by
      refine get_next_day_of_month_found s.days_of_month d ⟨dd, by omega, ?_, hd3⟩
      have h28 := daysInMonth_ge_28 d.year d.month
      omega
    have hval := get_next_day_of_month_not_looped s.days_of_month d hnl
    obtain ⟨k2, rfl⟩ : ∃ k2, k = k2 + 1 := ⟨k - 1, by omega⟩
    have hrec : ∃ r, dayLoop s (k2 + 1) (get_next_day_of_month s.days_of_month d).1 =
        some (Sum.inl r) := by
      rw [dayLoop, if_pos hval.1]
      obtain ⟨r, hr⟩ := hourLoop_daystart_hit s (k2 + 1) _ (by omega) hval.2.2.2.1
        hval.2.2.2.2 hexh hexm
      rw [hr]
      exact ⟨r, rfl⟩
    obtain ⟨r, hr⟩ := hrec
    refine ⟨r, ?_⟩
    have hfin : (if (get_next_day_of_month s.days_of_month d).2 &&
        !(is_month_valid (get_next_day_of_month s.days_of_month d).1 s.months)
        then some (Sum.inr (get_next_day_of_month s.days_of_month d).1)
        else dayLoop s (k2 + 1) (get_next_day_of_month s.days_of_month d).1) =
        some (Sum.inl r) := by
      rw [if_neg (by simp [hnl]), hr]
    exact hfin

/-- With a permitted day in `1..28` and permitted hours/minutes, the day loop
always returns — a match, or a break at the (unpermitted) first instant of a
new month. -/
theorem dayLoop_adequate (s : Schedule) :
    ∀ (f : Nat) (d : DateTime), 8 ≤ f →
      (∃ m, 1 ≤ m ∧ m ≤ 28 ∧ s.days_of_month.testBit m = true) →
      (∃ m, m ≤ 23 ∧ s.hours.testBit m = true) →
      (∃ m, m ≤ 59 ∧ s.minutes.testBit m = true) →
      ∃ x, dayLoop s f d = some x ∧
        ∀ r, x = Sum.inr r → r.day = 1 ∧ r.hour = 0 ∧ r.minute = 0 ∧
          1 ≤ r.month ∧ r.month ≤ 12 ∧ is_month_valid r s.months = false := by
  intro f d hf hexd hexh hexm
  obtain ⟨k, rfl⟩ : ∃ k, f = k + 1 := ⟨f - 1, by omega⟩
  rw [dayLoop]
  have tail : ∀ d1 : DateTime, ∃ x,
      (if (get_next_day_of_month s.days_of_month d1).2 &&
          !(is_month_valid (get_next_day_of_month s.days_of_month d1).1 s.months)
        then some (Sum.inr (get_next_day_of_month s.days_of_month d1).1)
        else dayLoop s k (get_next_day_of_month s.days_of_month d1).1) = some x ∧
      ∀ r, x = Sum.inr r → r.day = 1 ∧ r.hour = 0 ∧ r.minute = 0 ∧
        1 ≤ r.month ∧ r.month ≤ 12 ∧ is_month_valid r s.months = false := by
    intro d1
    cases hl : (get_next_day_of_month s.days_of_month d1).2 with
    | false =>
      have hval := get_next_day_of_month_not_looped s.days_of_month d1 hl
      rw [if_neg (by simp [hl])]
      obtain ⟨k2, rfl⟩ : ∃ k2, k = k2 + 1 := ⟨k - 1, by omega⟩
      rw [dayLoop, if_pos hval.1]
      obtain ⟨r, hr⟩ := hourLoop_daystart_hit s (k2 + 1) _ (by omega) hval.2.2.2.1
        hval.2.2.2.2 hexh hexm
      rw [hr]
      exact ⟨Sum.inl r, rfl, fun r' h => Sum.noConfusion h⟩
    | true =>
      have heq := get_next_day_of_month_looped s.days_of_month d1 hl
      by_cases hmv : is_month_valid (get_next_day_of_month s.days_of_month d1).1 s.months = true
      · rw [if_neg (by simp [hl, hmv])]
        have hsh1 : (get_next_day_of_month s.days_of_month d1).1.day = 1 := by rw [heq]; simp
        have hsh2 : (get_next_day_of_month s.days_of_month d1).1.hour = 0 := by rw [heq]; simp
        have hsh3 : (get_next_day_of_month s.days_of_month d1).1.minute = 0 := by rw [heq]; simp
        obtain ⟨r, hr⟩ := dayLoop_monthstart_hit s k _ (by omega) hsh1 hsh2 hsh3 hexd hexh hexm
        exact ⟨Sum.inl r, hr, fun r' h => Sum.noConfusion h⟩
      · rw [if_pos (by simp [hl, hmv])]
        refine ⟨Sum.inr (get_next_day_of_month s.days_of_month d1).1, rfl, ?_⟩
        rintro r' hx
        injection hx with hx1
        subst hx1
        have hmr := incMonth_month_range (⟨d1.year, d1.month, 1, 0, 0, 0, 0⟩ : DateTime)
        refine ⟨by rw [heq]; simp, by rw [heq]; simp, by rw [heq]; simp, ?_, ?_, ?_⟩
        · rw [heq]; exact hmr.1
        · rw [heq]; exact hmr.2
        · simpa using hmv
  by_cases hb : is_day_of_month_valid d s.days_of_month = true
  · rw [if_pos hb]
    obtain ⟨y, hy, hyr⟩ := hourLoop_adequate s (k + 1) d (by omega) hexh hexm
    rw [hy]
    cases y with
    | inl res => exact ⟨Sum.inl res, rfl, fun r' h => Sum.noConfusion h⟩
    | inr d1 => exact tail d1
  · rw [if_neg hb]
    exact tail d

theorem next_month_month_lt {d : DateTime} (h : d.month < 12) :
    (next_month d).month = d.month + 1 := by
  rcases d with ⟨y, mo, da, hh, mi, s, ss⟩
  simp only [next_month, to_start_of_month, incMonth]
  rw [if_pos (show mo < 12 from h)]

theorem next_month_month_ge {d : DateTime} (h : 12 ≤ d.month) :
    (next_month d).month = 1 := by
  rcases d with ⟨y, mo, da, hh, mi, s, ss⟩
  have hmo : 12 ≤ mo := h
  simp only [next_month, to_start_of_month, incMonth]
  rw [if_neg (show ¬(mo < 12) by omega)]

/-- If, walking one month at a time, some permitted month is reachable within
`fuel` steps, `get_next_month` finds the first instant of a permitted month. -/
theorem get_next_month_adequate (months : Nat) :
    ∀ (f : Nat) (d : DateTime), 1 ≤ d.month → d.month ≤ 12 →
      (∃ j, 1 ≤ j ∧ j ≤ f ∧ months.testBit ((d.month + j - 1) % 12 + 1) = true) →
      ∃ d', get_next_month months f d = some d' ∧
        is_month_valid d' months = true ∧ 1 ≤ d'.month ∧ d'.month ≤ 12 ∧
        d'.day = 1 ∧ d'.hour = 0 ∧ d'.minute = 0 := by
  intro f
  induction f with
  | zero =>
    intro d h1 h2 hex
    obtain ⟨j, hj1, hj2, -⟩ := hex
    omega
  | succ g ih =>
    intro d h1 h2 hex
    obtain ⟨j, hj1, hj2, hj3⟩ := hex
    rw [get_next_month]
    by_cases hv : is_month_valid (next_month d) months = true
    · rw [if_pos hv]
      exact ⟨next_month d, rfl, hv, (next_month_month_range d).1,
        (next_month_month_range d).2, by simp, by simp, by simp⟩
    · rw [if_neg hv]
      have hne1 : j ≠ 1 := by
        rintro rfl
        refine hv ?_
        rw [is_month_valid_eq]
        have harg : (next_month d).month = (d.month + 1 - 1) % 12 + 1 := by
          by_cases hlt : d.month < 12
          · rw [next_month_month_lt hlt]; omega
          · rw [next_month_month_ge (by omega)]; omega
        rw [harg]
        exact hj3
      refine ih (next_month d) (next_month_month_range d).1 (next_month_month_range d).2
        ⟨j - 1, by omega, by omega, ?_⟩
      have harg : ((next_month d).month + (j - 1) - 1) % 12 + 1 = (d.month + j - 1) % 12 + 1 := by
        by_cases hlt : d.month < 12
        · rw [next_month_month_lt hlt]; omega
        · rw [next_month_month_ge (by omega)]; omega
      rw [harg]
      exact hj3

/-- Any permitted month `t` is reached from month `m` in at most 12 one-month
steps. -/
theorem exists_cycle_step (months m t : Nat) (hm1 : 1 ≤ m) (hm2 : m ≤ 12)
    (ht1 : 1 ≤ t) (ht2 : t ≤ 12) (ht3 : months.testBit t = true) :
    ∃ j, 1 ≤ j ∧ j ≤ 12 ∧ months.testBit ((m + j - 1) % 12 + 1) = true := by
  refine ⟨(t + 12 - m - 1) % 12 + 1, by omega, by omega, ?_⟩
  have harg : (m + ((t + 12 - m - 1) % 12 + 1) - 1) % 12 + 1 = t := by omega
  rw [harg]
  exact ht3

/-- Advancing one minute keeps the month in the calendar range `1..12`. -/
theorem next_minute_month_range (d : DateTime) (h1 : 1 ≤ d.month) (h2 : d.month ≤ 12) :
    1 ≤ (next_minute d).1.month ∧ (next_minute d).1.month ≤ 12 := by
  rcases d with ⟨y, mo, da, h, mi, s, ss⟩
  simp only [next_minute, to_start_of_minute, incMinute, incHour, incDay, incMonth]
  split_ifs <;> simp_all <;> omega

/-- With one realisable value permitted per field, the outer loop returns
within fuel 12 from any instant whose month is in range. -/
theorem monthLoop_adequate (s : Schedule) (d : DateTime) (hm1 : 1 ≤ d.month)
    (hm2 : d.month ≤ 12)
    (hexmo : ∃ m, 1 ≤ m ∧ m ≤ 12 ∧ s.months.testBit m = true)
    (hexd : ∃ m, 1 ≤ m ∧ m ≤ 28 ∧ s.days_of_month.testBit m = true)
    (hexh : ∃ m, m ≤ 23 ∧ s.hours.testBit m = true)
    (hexm : ∃ m, m ≤ 59 ∧ s.minutes.testBit m = true) :
    ∃ r, monthLoop s 12 d = some r := by
  rw [show (12 : Nat) = 11 + 1 from rfl, monthLoop]
  have tail : ∀ d1 : DateTime, 1 ≤ d1.month → d1.month ≤ 12 →
      ∃ r, (match get_next_month s.months (11 + 1) d1 with
        | none => none
        | some d2 => monthLoop s 11 d2) = some r := by
    intro d1 h1 h2
    obtain ⟨t, ht1, ht2, ht3⟩ := hexmo
    obtain ⟨d2, hd2, hd2v, hd2r1, hd2r2, hd2day, hd2hour, hd2min⟩ :=
      get_next_month_adequate s.months 12 d1 h1 h2
        (exists_cycle_step s.months d1.month t h1 h2 ht1 ht2 ht3)
    have hrec : ∃ r, monthLoop s 11 d2 = some r := by
      rw [show (11 : Nat) = 10 + 1 from rfl, monthLoop, if_pos hd2v]
      obtain ⟨r, hr⟩ := dayLoop_monthstart_hit s (10 + 1) d2 (by omega) hd2day hd2hour
        hd2min hexd hexh hexm
      rw [hr]
      exact ⟨r, rfl⟩
    obtain ⟨r, hr⟩ := hrec
    refine ⟨r, ?_⟩
    rw [show get_next_month s.months (11 + 1) d1 = some d2 from hd2]
    exact hr
  by_cases hb : is_month_valid d s.months = true
  · rw [if_pos hb]
    obtain ⟨y, hy, hyr⟩ := dayLoop_adequate s (11 + 1) d (by omega) hexd hexh hexm
    rw [hy]
    cases y with
    | inl res => exact ⟨res, rfl⟩
    | inr d1 =>
      obtain ⟨-, -, -, h4, h5, -⟩ := hyr d1 rfl
      exact tail d1 h4 h5
  · rw [if_neg hb]
    exact tail d hm1 hm2

/-- C4 (amended): for every schedule with at least one bit set at a
realisable value in each field — a month bit in `1..12`, a day bit in `1..28`
(a day of month that exists in every month), an hour bit in `0..23` and a
minute bit in `0..59` — and every valid starting instant, the
`get_next_match` search terminates (fuel 12 suffices). -/
theorem C4_amended_termination (s : Schedule) (d : DateTime) (hv : d.Valid)
    (hexmo : ∃ m, 1 ≤ m ∧ m ≤ 12 ∧ s.months.testBit m = true)
    (hexd : ∃ m, 1 ≤ m ∧ m ≤ 28 ∧ s.days_of_month.testBit m = true)
    (hexh : ∃ m, m ≤ 23 ∧ s.hours.testBit m = true)
    (hexm : ∃ m, m ≤ 59 ∧ s.minutes.testBit m = true) :
    Terminates s d := by
  obtain ⟨h1, h2, -⟩ := hv
  have hr1 := next_minute_month_range d h1 h2
  obtain ⟨r, hr⟩ := monthLoop_adequate s (next_minute d).1 hr1.1 hr1.2 hexmo hexd hexh hexm
  exact ⟨12, r, hr⟩

/-- Witness for the amended C4: the universal-wildcard schedule from
2023-06-05 12:00 terminates. -/
theorem C4_witness :
    Terminates ⟨4095, 2147483647, 16777215, 1152921504606846975⟩ ⟨2023, 6, 5, 12, 0, 0, 0⟩ :=
  C4_amended_termination ⟨4095, 2147483647, 16777215, 1152921504606846975⟩
    ⟨2023, 6, 5, 12, 0, 0, 0⟩ (by decide)
    ⟨1, by omega, by omega, by decide⟩ ⟨1, by omega, by omega, by decide⟩
    ⟨0, by omega, by decide⟩ ⟨0, by omega, by decide⟩
